import Mathlib

/-!
Verification development for the Moshi → kotlinx.serialization migration
tool (`main.py`).  Source lines are modelled as lists of characters, a file
as a list of lines (each line keeps its terminator, exactly as produced by
`splitlines(keepends=True)`).  The regular expressions of the source are
translated into executable parsers over character lists; each translation
is justified next to its definition (all the regexes involved are
deterministic: every greedy sub-pattern is delimited by a character class
disjoint from its follower, so no backtracking can change the outcome).
-/

set_option maxRecDepth 4000

abbrev Line := List Char

/-- Python's `\s` on the ASCII range (the inputs of interest are ASCII;
`str.strip()` and `\s` agree on these characters). -/
def isPySpace (c : Char) : Bool :=
  c == ' ' || c == '\t' || c == '\n' || c == '\r' || c == '\x0b' || c == '\x0c'

/-- Strip a literal from the front: `stripLit lit l = some r` iff `l = lit ++ r`. -/
def stripLit : List Char → List Char → Option (List Char)
  | [], rest => some rest
  | _, [] => none
  | p :: ps, c :: cs => if c = p then stripLit ps cs else none

/-- Whether `l` starts with the literal `p`. -/
def hasPfx (p l : Line) : Bool := (stripLit p l).isSome

/-- Python `str.strip()`: drop whitespace from both ends. -/
def pyStrip (l : Line) : Line :=
  ((l.dropWhile isPySpace).reverse.dropWhile isPySpace).reverse

/-- Python `list.insert(i, x)`: positions past the end append at the end. -/
def pyInsert {α : Type} (xs : List α) (i : Nat) (x : α) : List α :=
  xs.take i ++ x :: xs.drop i

/-- Core of `RE_ANNOTATION_JSONCLASS = ^(\\s*)@JsonClass\\([^)]*\\)\\s*$` on the
text after the captured indent.  `[^)]*` stops at the first `)` (greedy over
a class disjoint from `)`), and `\\s*$` means the remainder is all whitespace
(`$` also matches just before a final newline, which is whitespace anyway). -/
def jsonClassCore (s : List Char) : Bool :=
  match stripLit ("@JsonClass(").toList s with
  | none => false
  | some r1 =>
    match r1.dropWhile (fun c => !(c == ')')) with
    | [] => false
    | c :: r3 => c == ')' && r3.all isPySpace

/-- Matcher `RE_ANNOTATION_JSONCLASS.match(line)`, returning the captured indent. -/
def matchJsonClass (l : Line) : Option Line :=
  if jsonClassCore (l.dropWhile isPySpace) then some (l.takeWhile isPySpace) else none

def isQuote (c : Char) : Bool := c == '\'' || c == '"'

/-- Core of `RE_ANNOTATION_JSON_WITH_NAME =
 ^(\\s*)@Json\\(\\s*name\\s*=\\s*['"]([^'"]+)['"]\\s*\\)\\s*$` after the indent,
returning the captured name.  Note the character class `['"]` accepts
either quote on each side. -/
def jsonNameCore (s : List Char) : Option Line :=
  match stripLit ("@Json(").toList s with
  | none => none
  | some r1 =>
    match stripLit ("name").toList (r1.dropWhile isPySpace) with
    | none => none
    | some r3 =>
      match r3.dropWhile isPySpace with
      | [] => none
      | e :: r5 =>
        if e == '=' then
          match r5.dropWhile isPySpace with
          | [] => none
          | q :: r7 =>
            if isQuote q then
              let nm := r7.takeWhile (fun c => !(isQuote c))
              match r7.dropWhile (fun c => !(isQuote c)) with
              | [] => none
              | q2 :: r9 =>
                if isQuote q2 && !nm.isEmpty then
                  match r9.dropWhile isPySpace with
                  | [] => none
                  | p :: r11 =>
                    if p == ')' && r11.all isPySpace then some nm else none
                else none
            else none
        else none

/-- Matcher `RE_ANNOTATION_JSON_WITH_NAME.match(line)`: captured indent and name. -/
def matchJsonName (l : Line) : Option (Line × Line) :=
  (jsonNameCore (l.dropWhile isPySpace)).map (fun nm => (l.takeWhile isPySpace, nm))

/-- Core of `RE_ANNOTATION_JSON = ^\\s*@Json(?:\\([^)]*\\))?\\s*$`.
If `(` follows `@Json` the optional group must close at the first `)`
(skipping the group cannot help, as `(` is not whitespace). -/
def bareJsonCore (s : List Char) : Bool :=
  match stripLit ("@Json").toList s with
  | none => false
  | some r1 =>
    match r1 with
    | [] => true
    | c :: r2 =>
      if c == '(' then
        match r2.dropWhile (fun c => !(c == ')')) with
        | [] => false
        | c2 :: r4 => c2 == ')' && r4.all isPySpace
      else (c :: r2).all isPySpace

def matchBareJson (l : Line) : Bool := bareJsonCore (l.dropWhile isPySpace)

/-- Core of `^\\s*import\\s+<path>\\s*$` for a literal dotted path
(`RE_IMPORT_JSON` / `RE_IMPORT_JSONCLASS`); `\\s+` demands at least one
space after `import`. -/
def importMoshiCore (path : List Char) (s : List Char) : Bool :=
  match stripLit ("import").toList s with
  | none => false
  | some r1 =>
    if (r1.takeWhile isPySpace).isEmpty then false
    else
      match stripLit path (r1.dropWhile isPySpace) with
      | none => false
      | some r3 => r3.all isPySpace

def matchImportMoshi (path : List Char) (l : Line) : Bool :=
  importMoshiCore path (l.dropWhile isPySpace)

def moshiJsonPath : List Char := ("com.squareup.moshi.Json").toList
def moshiJsonClassPath : List Char := ("com.squareup.moshi.JsonClass").toList

def isMoshiImport (l : Line) : Bool :=
  matchImportMoshi moshiJsonPath l || matchImportMoshi moshiJsonClassPath l

def isIdentStart (c : Char) : Bool :=
  ('a' <= c && c <= 'z') || ('A' <= c && c <= 'Z') || c == '_'

def isIdentChar (c : Char) : Bool :=
  isIdentStart c || ('0' <= c && c <= '9')

/-- Core of `RE_VAL_DECL = ^(\\s*)val\\s+([A-Za-z_][A-Za-z0-9_]*)\\s*:` used with
`re.match` (prefix match, no `$`), returning the identifier. -/
def valDeclCore (s : List Char) : Option Line :=
  match stripLit ("val").toList s with
  | none => none
  | some r1 =>
    if (r1.takeWhile isPySpace).isEmpty then none
    else
      match r1.dropWhile isPySpace with
      | [] => none
      | c :: r3 =>
        if isIdentStart c then
          match (r3.dropWhile isIdentChar).dropWhile isPySpace with
          | [] => none
          | c2 :: _ =>
            if c2 == ':' then some (c :: r3.takeWhile isIdentChar) else none
        else none

/-- Matcher `RE_VAL_DECL.match(line)`: captured indent and identifier. -/
def matchValDecl (l : Line) : Option (Line × Line) :=
  (valDeclCore (l.dropWhile isPySpace)).map (fun idn => (l.takeWhile isPySpace, idn))

def isLowerDigit (c : Char) : Bool := ('a' ≤ c && c ≤ 'z') || ('0' ≤ c && c ≤ '9')
def isUpperAscii (c : Char) : Bool := 'A' ≤ c && c ≤ 'Z'
def isLowerAscii (c : Char) : Bool := 'a' ≤ c && c ≤ 'z'

/-- Pass `re.sub(r"([a-z0-9])([A-Z])", r"\1_\2", s)`: since the two classes are
disjoint, the left-to-right non-overlapping scan is exactly "insert `_`
between every adjacent lower-or-digit/upper pair" (the second character of
a match can never start another match). -/
def snakeSub1 : List Char → List Char
  | [] => []
  | [c] => [c]
  | c1 :: c2 :: rest =>
    if isLowerDigit c1 && isUpperAscii c2 then c1 :: '_' :: snakeSub1 (c2 :: rest)
    else c1 :: snakeSub1 (c2 :: rest)

/-- Pass `re.sub(r"([A-Z]+)([A-Z][a-z])", r"\1_\2", s)`: the greedy group
backtracks to split an uppercase run of length ≥ 2 right before its final
upper-lower pair, so `_` is inserted exactly between positions `j, j+1`
with `s[j]` upper, `s[j+1]` upper, `s[j+2]` lower; two such positions are
at least three apart, so the stepwise scan below coincides with `re.sub`'s
resume-after-match behaviour. -/
def snakeSub2 : List Char → List Char
  | c1 :: c2 :: c3 :: rest =>
    if isUpperAscii c1 && isUpperAscii c2 && isLowerAscii c3 then
      c1 :: '_' :: snakeSub2 (c2 :: c3 :: rest)
    else c1 :: snakeSub2 (c2 :: c3 :: rest)
  | l => l

/-- Function `camel_to_snake` from `main.py` (`str.lower()` modelled on ASCII). -/
def camel_to_snake (name : List Char) : List Char :=
  (snakeSub2 (snakeSub1 name)).map Char.toLower

/-- One `ValidationError` per `errors.append` site in `_process_lines`,
carrying the data interpolated into the corresponding message string. -/
inductive ValidationError : Type where
  | missingFieldDecl : ValidationError
  | malformedFieldDecl : Line → ValidationError
  | nameMismatch : Line → Line → Line → ValidationError
deriving DecidableEq

/-- Accumulated state of the first pass of `_process_lines`:
`out` is `transformed`, the counters are the `stats` entries written during
pass 1, `insSer`/`insSN` are `inserted_serializable`/`inserted_serialname`. -/
structure Pass1Out : Type where
  out : List Line
  changed : Bool
  jsonRemoved : Nat
  jsonclassReplaced : Nat
  insSer : Bool
  insSN : Bool
  errors : List ValidationError
deriving DecidableEq

def serializableLine (ind : Line) : Line := ind ++ ("@Serializable\n").toList

def serialNameLine (ind nm : Line) : Line :=
  ind ++ ("@SerialName(\"").toList ++ nm ++ ("\")\n").toList

/-- The body of the `while i < n` loop of `_process_lines` (first pass).
`next?` is `lines[i+1]` when it exists (`none` exactly when `i + 1 >= n`);
`r` is the result accumulated over the remaining lines: every branch of the
loop ends in `i += 1; continue`, so the line after the current one is
always reprocessed normally and the loop is structural recursion on the
list of lines. -/
def pass1Step (fixNames fixAll : Bool) (line : Line) (next? : Option Line)
    (r : Pass1Out) : Pass1Out :=
  match matchJsonClass line with
  | some ind =>
    { r with out := serializableLine ind :: r.out
             jsonclassReplaced := r.jsonclassReplaced + 1
             insSer := true
             changed := r.changed || decide (line ≠ serializableLine ind) }
  | none =>
    match matchJsonName line with
    | some (ind, nm) =>
      if fixAll then
        { r with out := serialNameLine ind nm :: r.out
                 insSN := true
                 jsonRemoved := r.jsonRemoved + 1
                 changed := true }
      else
        match next? with
        | none => { r with errors := .missingFieldDecl :: r.errors }
        | some next =>
          match matchValDecl next with
          | none => { r with errors := .malformedFieldDecl (pyStrip next) :: r.errors }
          | some (_, fieldName) =>
            if camel_to_snake fieldName = nm then
              { r with jsonRemoved := r.jsonRemoved + 1, changed := true }
            else if fixNames then
              { r with out := serialNameLine ind nm :: r.out
                       insSN := true
                       changed := true }
            else
              { r with errors :=
                         .nameMismatch fieldName (camel_to_snake fieldName) nm :: r.errors
                       jsonRemoved := r.jsonRemoved + 1
                       changed := true }
    | none =>
      if matchBareJson line then
        { r with jsonRemoved := r.jsonRemoved + 1, changed := true }
      else
        { r with out := line :: r.out }

/-- First pass of `_process_lines`. -/
def pass1 (fixNames fixAll : Bool) : List Line → Pass1Out
  | [] => ⟨[], false, 0, 0, false, false, []⟩
  | line :: rest => pass1Step fixNames fixAll line rest.head? (pass1 fixNames fixAll rest)

def serImportBody : Line := ("import kotlinx.serialization.Serializable").toList
def snImportBody : Line := ("import kotlinx.serialization.SerialName").toList
def serImportLine : Line := serImportBody ++ ['\n']
def snImportLine : Line := snImportBody ++ ['\n']

/-- First index with `line.startswith("package ")` (the `package_index`
loop runs over `transformed`, i.e. the pass-1 output). -/
def firstIdxP {α : Type} (p : α → Bool) : List α → Option Nat
  | [] => none
  | x :: xs => if p x then some 0 else (firstIdxP p xs).map (· + 1)

/-- Last index satisfying the predicate (the `last_import_idx` loop keeps
overwriting, hence the last hit wins). -/
def lastIdxP {α : Type} (p : α → Bool) : List α → Option Nat
  | [] => none
  | x :: xs =>
    match lastIdxP p xs with
    | some k => some (k + 1)
    | none => if p x then some 0 else none

def packageIdx (ls : List Line) : Option Nat :=
  firstIdxP (fun l => hasPfx ("package ").toList l) ls

def lastImportIdx (ls : List Line) : Option Nat :=
  lastIdxP (fun l => hasPfx ("import ").toList (pyStrip l)) ls

/-- Function `insert_import` of `main.py`: inserts after the last surviving import
line if any; otherwise after `package_index + 1` (skipping one blank line),
where `package_index` was computed on the pre-removal sequence; otherwise
at the very top.  Returns the new list and the updated `last_import_idx`
(always set after an insertion). -/
def insertImport (res : List Line) (li pkg : Option Nat) (imp : Line) :
    List Line × Nat :=
  match li with
  | some k => (pyInsert res (k + 1) imp, k + 1)
  | none =>
    match pkg with
    | some p =>
      let a1 := if p + 1 < res.length ∧ pyStrip (res.getD (p + 1) []) = []
                then p + 2 else p + 1
      (pyInsert res a1 imp, a1)
    | none => (imp :: res, 0)

/-- The two conditional import insertions at the end of `_process_lines`,
with the stateful `last_import_idx` threaded between them. -/
def insertPhase (r0 : List Line) (li pkg : Option Nat) (doSer doSN : Bool) :
    List Line :=
  let s1 := if doSer then
        (fun z => (z.1, some z.2)) (insertImport r0 li pkg serImportLine)
      else (r0, li)
  if doSN then (insertImport s1.1 s1.2 pkg snImportLine).1 else s1.1

/-- Return value of `_process_lines`: `out` is `result_lines` after the two
possible import insertions; `changed`/stats mirror the returned dict, and
`snImportAdded` is `stats["import_serialname_added"]` (absent key ≡ false). -/
structure TransformResult : Type where
  out : List Line
  changed : Bool
  jsonRemoved : Nat
  jsonclassReplaced : Nat
  moshiRemoved : Nat
  serImportAdded : Bool
  snImportAdded : Bool
  errors : List ValidationError
deriving DecidableEq

def hasSerOf (p : Pass1Out) : Bool := p.out.any (fun l => pyStrip l = serImportBody)

def hasSNOf (p : Pass1Out) : Bool := p.out.any (fun l => pyStrip l = snImportBody)

/-- Number of legacy import lines removed by the filtering loop. -/
def moshiCount (p : Pass1Out) : Nat := (p.out.filter (fun l => isMoshiImport l)).length

/-- The `result_lines` list right after the moshi-import filtering loop. -/
def resultZero (p : Pass1Out) : List Line := p.out.filter (fun l => !(isMoshiImport l))

def needsSerOf (p : Pass1Out) : Bool :=
  p.insSer || (resultZero p).any (fun l => hasPfx ("@Serializable").toList (pyStrip l))

def needsSNOf (p : Pass1Out) : Bool :=
  p.insSN || (resultZero p).any (fun l => hasPfx ("@SerialName(").toList (pyStrip l))

def doSerOf (p : Pass1Out) : Bool := needsSerOf p && !(hasSerOf p)

def doSNOf (p : Pass1Out) : Bool := needsSNOf p && !(hasSNOf p)

/-- Function `_process_lines` of `main.py`: pass 1, then the import pass exactly as
in the source (`has_*` are computed on `transformed`, `needs_*` and
`last_import_idx` on the filtered `result_lines`, `package_index` on
`transformed`).  The `import_indices` list computed in the source is never
read afterwards and is omitted. -/
def process_lines (fixNames fixAll : Bool) (lines : List Line) : TransformResult :=
  let p := pass1 fixNames fixAll lines
  { out := insertPhase (resultZero p) (lastImportIdx (resultZero p)) (packageIdx p.out)
             (doSerOf p) (doSNOf p)
    changed := (p.changed || decide (0 < moshiCount p)) || doSerOf p || doSNOf p
    jsonRemoved := p.jsonRemoved
    jsonclassReplaced := p.jsonclassReplaced
    moshiRemoved := moshiCount p
    serImportAdded := doSerOf p
    snImportAdded := doSNOf p
    errors := p.errors }

/-- Result of `process_file`: `written = some newLines` models the single
`path.write_text` call (joined output), `none` models the file left
byte-for-byte untouched. -/
structure FileResult : Type where
  written : Option (List Line)
  res : TransformResult
deriving DecidableEq

/-- Function `process_file` of `main.py`, at the granularity of the already split
line list: `if (not errors) and meta["changed"] and write: write_text(...)`. -/
def process_file (origLines : List Line) (write fixNames fixAll : Bool) :
    FileResult :=
  let r := process_lines fixNames fixAll origLines
  { written := if r.errors = [] ∧ r.changed = true ∧ write = true
               then some r.out else none
    res := r }

/-- A line matching none of the three legacy annotation patterns. -/
def notLegacy (l : Line) : Bool :=
  (matchJsonClass l).isNone && (matchJsonName l).isNone && !(matchBareJson l)

/-- A line recognized by no pattern at all (annotations or legacy imports):
such lines are copied verbatim. -/
def isPlainLine (l : Line) : Bool := notLegacy l && !(isMoshiImport l)

/-- The strict-mode handling of one named field marker, spelled as in the
specification: validate against the (optional) following line, record
exactly one error on failure or mismatch, drop the marker line in every
case, and keep the rest of the scan untouched. -/
def strictNamedRhs (nm : Line) (next? : Option Line) (r : Pass1Out) : Pass1Out :=
  match next? with
  | none => { r with errors := .missingFieldDecl :: r.errors }
  | some next =>
    match matchValDecl next with
    | none => { r with errors := .malformedFieldDecl (pyStrip next) :: r.errors }
    | some (_, f) =>
      if camel_to_snake f = nm then
        { r with jsonRemoved := r.jsonRemoved + 1, changed := true }
      else
        { r with errors := .nameMismatch f (camel_to_snake f) nm :: r.errors
                 jsonRemoved := r.jsonRemoved + 1
                 changed := true }

/-! ### Basic facts about the string helpers -/

theorem stripLit_eq_some {p : List Char} : ∀ {l r : List Char},
    stripLit p l = some r ↔ l = p ++ r := by
  induction p with
  | nil => intro l r; simp [stripLit]
  | cons a ps ih =>
    intro l r
    cases l with
    | nil => simp [stripLit]
    | cons c cs =>
      simp only [stripLit, List.cons_append, List.cons.injEq]
      by_cases h : c = a
      · simp [h, ih]
      · simp [h]

theorem hasPfx_iff {p l : Line} : hasPfx p l = true ↔ ∃ r, l = p ++ r := by
  simp [hasPfx, Option.isSome_iff_exists, stripLit_eq_some]

theorem mem_pyStrip {a : Char} {l : Line} (h : a ∈ pyStrip l) : a ∈ l := by
  unfold pyStrip at h
  rw [List.mem_reverse] at h
  have h1 : a ∈ (l.dropWhile isPySpace).reverse := (List.dropWhile_sublist _).subset h
  rw [List.mem_reverse] at h1
  exact (List.dropWhile_sublist _).subset h1

theorem takeWhile_all_append {p : Char → Bool} : ∀ {xs : List Char} {y : Char}
    {r : List Char}, (∀ c ∈ xs, p c = true) → p y = false →
    ((xs ++ y :: r).takeWhile p = xs ∧ (xs ++ y :: r).dropWhile p = y :: r) := by
  intro xs
  induction xs with
  | nil => intro y r _ h2; simp [List.takeWhile_cons, List.dropWhile_cons, h2]
  | cons x xt ih =>
    intro y r h1 h2
    have hx : p x = true := h1 x (by simp)
    have ht := ih (r := r) (y := y) (fun c hc => h1 c (by simp [hc])) h2
    simp [List.takeWhile_cons, List.dropWhile_cons, hx, ht.1, ht.2]

theorem isPySpace_char_cases {c : Char} (h : isPySpace c = true) :
    c = ' ' ∨ c = '\t' ∨ c = '\n' ∨ c = '\r' ∨ c = '\x0b' ∨ c = '\x0c' := by
  simp [isPySpace] at h
  tauto

theorem isPySpace_ne_marks {c : Char} (h : isPySpace c = true) :
    c ≠ '@' ∧ c ≠ 'i' ∧ c ≠ 'k' ∧ c ≠ 'p' := by
  rcases isPySpace_char_cases h with h' | h' | h' | h' | h' | h' <;> subst h' <;> decide

/-! ### The matchers only look past the leading whitespace -/

theorem matchJsonClass_cons_space {c : Char} {l : Line} (h : isPySpace c = true) :
    matchJsonClass (c :: l) = (matchJsonClass l).map (fun i => c :: i) := by
  unfold matchJsonClass
  rw [List.dropWhile_cons_of_pos h, List.takeWhile_cons_of_pos h]
  by_cases hc : jsonClassCore (l.dropWhile isPySpace) <;> simp [hc]

theorem matchJsonName_cons_space {c : Char} {l : Line} (h : isPySpace c = true) :
    matchJsonName (c :: l) = (matchJsonName l).map (fun x => (c :: x.1, x.2)) := by
  unfold matchJsonName
  rw [List.dropWhile_cons_of_pos h, List.takeWhile_cons_of_pos h]
  cases jsonNameCore (l.dropWhile isPySpace) <;> simp

theorem matchBareJson_cons_space {c : Char} {l : Line} (h : isPySpace c = true) :
    matchBareJson (c :: l) = matchBareJson l := by
  unfold matchBareJson
  rw [List.dropWhile_cons_of_pos h]

theorem matchImportMoshi_cons_space {t : List Char} {c : Char} {l : Line}
    (h : isPySpace c = true) :
    matchImportMoshi t (c :: l) = matchImportMoshi t l := by
  unfold matchImportMoshi
  rw [List.dropWhile_cons_of_pos h]

/-! ### Lines whose first non-space characters are `@S` match nothing -/

theorem jsonClassCore_atS (r : List Char) : jsonClassCore ('@' :: 'S' :: r) = false := by
  simp [jsonClassCore, stripLit]

theorem jsonNameCore_atS (r : List Char) : jsonNameCore ('@' :: 'S' :: r) = none := by
  simp [jsonNameCore, stripLit]

theorem bareJsonCore_atS (r : List Char) : bareJsonCore ('@' :: 'S' :: r) = false := by
  simp [bareJsonCore, stripLit]

theorem importMoshiCore_at (t : List Char) (r : List Char) :
    importMoshiCore t ('@' :: r) = false := by
  simp [importMoshiCore, stripLit]

theorem matchers_space_atS {ind : Line} (h : ∀ c ∈ ind, isPySpace c = true)
    (r : List Char) :
    matchJsonClass (ind ++ '@' :: 'S' :: r) = none ∧
    matchJsonName (ind ++ '@' :: 'S' :: r) = none ∧
    matchBareJson (ind ++ '@' :: 'S' :: r) = false ∧
    isMoshiImport (ind ++ '@' :: 'S' :: r) = false := by
  induction ind with
  | nil =>
    have hat : isPySpace '@' = false := by decide
    refine ⟨?_, ?_, ?_, ?_⟩ <;>
      simp [matchJsonClass, matchJsonName, matchBareJson, isMoshiImport,
        matchImportMoshi, List.dropWhile_cons, hat, jsonClassCore_atS, jsonNameCore_atS,
        bareJsonCore_atS, importMoshiCore_at]
  | cons c it ih =>
    have hc : isPySpace c = true := h c (by simp)
    have iht := ih (fun x hx => h x (by simp [hx]))
    rw [List.cons_append, matchJsonClass_cons_space hc, matchJsonName_cons_space hc,
      matchBareJson_cons_space hc]
    unfold isMoshiImport
    rw [matchImportMoshi_cons_space hc, matchImportMoshi_cons_space hc]
    have h4 : isMoshiImport (it ++ '@' :: 'S' :: r) = false := iht.2.2.2
    unfold isMoshiImport at h4
    simp only [Bool.or_eq_false_iff] at h4
    simp [iht.1, iht.2.1, iht.2.2.1, h4.1, h4.2]

theorem serializableLine_shape (ind : Line) :
    serializableLine ind = ind ++ '@' :: 'S' :: ("erializable\n").toList := rfl

theorem serialNameLine_shape (ind nm : Line) :
    serialNameLine ind nm =
      ind ++ '@' :: 'S' :: (("erialName(\"").toList ++ nm ++ ("\")\n").toList) := by
  simp [serialNameLine]

/-- The replacement lines emitted by pass 1 match none of the legacy
patterns and are not moshi imports. -/
theorem repl_not_legacy {ind : Line} (h : ∀ c ∈ ind, isPySpace c = true) (nm : Line) :
    (matchJsonClass (serializableLine ind) = none ∧
     matchJsonName (serializableLine ind) = none ∧
     matchBareJson (serializableLine ind) = false ∧
     isMoshiImport (serializableLine ind) = false) ∧
    (matchJsonClass (serialNameLine ind nm) = none ∧
     matchJsonName (serialNameLine ind nm) = none ∧
     matchBareJson (serialNameLine ind nm) = false ∧
     isMoshiImport (serialNameLine ind nm) = false) := by
  constructor
  · rw [serializableLine_shape]; exact matchers_space_atS h _
  · rw [serialNameLine_shape]; exact matchers_space_atS h _

theorem matchJsonClass_ind {l ind : Line} (h : matchJsonClass l = some ind) :
    ∀ c ∈ ind, isPySpace c = true := by
  unfold matchJsonClass at h
  split at h
  · cases h; exact fun c hc => List.mem_takeWhile_imp hc
  · cases h

theorem matchJsonName_ind {l ind nm : Line} (h : matchJsonName l = some (ind, nm)) :
    ∀ c ∈ ind, isPySpace c = true := by
  unfold matchJsonName at h
  cases hc : jsonNameCore (l.dropWhile isPySpace) with
  | none => rw [hc] at h; cases h
  | some v =>
    rw [hc] at h
    simp at h
    rw [← h.1]
    exact fun c hc => List.mem_takeWhile_imp hc

theorem space_append_at_ne {ind : Line} (h : ∀ c ∈ ind, isPySpace c = true)
    {c0 : Char} (hc0 : isPySpace c0 = false) (hne : c0 ≠ '@') (r s : List Char) :
    ind ++ '@' :: r ≠ c0 :: s := by
  cases ind with
  | nil =>
    intro he
    exact hne (((List.cons.injEq _ _ _ _).mp he).1.symm)
  | cons c it =>
    intro he
    rw [List.cons_append] at he
    have h1 : c = c0 := ((List.cons.injEq _ _ _ _).mp he).1
    have h2 : isPySpace c = true := h c (by simp)
    rw [h1] at h2
    exact absurd h2 (by simp [hc0])

/-! ### Equations for the pass-1 loop body, one per branch of the source -/

theorem pass1_cons (fm fa : Bool) (line : Line) (rest : List Line) :
    pass1 fm fa (line :: rest) = pass1Step fm fa line rest.head? (pass1 fm fa rest) := rfl

theorem pass1Step_jsonClass {line ind : Line} (h : matchJsonClass line = some ind)
    (fm fa : Bool) (n? : Option Line) (r : Pass1Out) :
    pass1Step fm fa line n? r =
      { r with out := serializableLine ind :: r.out
               jsonclassReplaced := r.jsonclassReplaced + 1
               insSer := true
               changed := r.changed || decide (line ≠ serializableLine ind) } := by
  unfold pass1Step; rw [h]

theorem pass1Step_named_fixAll {line ind nm : Line} (h1 : matchJsonClass line = none)
    (h2 : matchJsonName line = some (ind, nm)) (fm : Bool) (n? : Option Line)
    (r : Pass1Out) :
    pass1Step fm true line n? r =
      { r with out := serialNameLine ind nm :: r.out
               insSN := true
               jsonRemoved := r.jsonRemoved + 1
               changed := true } := by
  simp [pass1Step, h1, h2]

theorem pass1Step_named_noNext {line ind nm : Line} (h1 : matchJsonClass line = none)
    (h2 : matchJsonName line = some (ind, nm)) (fm : Bool) (r : Pass1Out) :
    pass1Step fm false line none r = { r with errors := .missingFieldDecl :: r.errors } := by
  simp [pass1Step, h1, h2]

theorem pass1Step_named_malformed {line ind nm next : Line}
    (h1 : matchJsonClass line = none) (h2 : matchJsonName line = some (ind, nm))
    (h3 : matchValDecl next = none) (fm : Bool) (r : Pass1Out) :
    pass1Step fm false line (some next) r =
      { r with errors := .malformedFieldDecl (pyStrip next) :: r.errors } := by
  simp [pass1Step, h1, h2, h3]

theorem pass1Step_named_matching {line ind nm next i2 f : Line}
    (h1 : matchJsonClass line = none) (h2 : matchJsonName line = some (ind, nm))
    (h3 : matchValDecl next = some (i2, f)) (h4 : camel_to_snake f = nm)
    (fm : Bool) (r : Pass1Out) :
    pass1Step fm false line (some next) r =
      { r with jsonRemoved := r.jsonRemoved + 1, changed := true } := by
  simp [pass1Step, h1, h2, h3, h4]

theorem pass1Step_named_mismatch_fix {line ind nm next i2 f : Line}
    (h1 : matchJsonClass line = none) (h2 : matchJsonName line = some (ind, nm))
    (h3 : matchValDecl next = some (i2, f)) (h4 : ¬(camel_to_snake f = nm))
    (r : Pass1Out) :
    pass1Step true false line (some next) r =
      { r with out := serialNameLine ind nm :: r.out
               insSN := true
               changed := true } := by
  simp [pass1Step, h1, h2, h3, h4]

theorem pass1Step_named_mismatch_strict {line ind nm next i2 f : Line}
    (h1 : matchJsonClass line = none) (h2 : matchJsonName line = some (ind, nm))
    (h3 : matchValDecl next = some (i2, f)) (h4 : ¬(camel_to_snake f = nm))
    (r : Pass1Out) :
    pass1Step false false line (some next) r =
      { r with errors := .nameMismatch f (camel_to_snake f) nm :: r.errors
               jsonRemoved := r.jsonRemoved + 1
               changed := true } := by
  simp [pass1Step, h1, h2, h3, h4]

theorem pass1Step_bare {line : Line} (h1 : matchJsonClass line = none)
    (h2 : matchJsonName line = none) (h3 : matchBareJson line = true)
    (fm fa : Bool) (n? : Option Line) (r : Pass1Out) :
    pass1Step fm fa line n? r =
      { r with jsonRemoved := r.jsonRemoved + 1, changed := true } := by
  simp [pass1Step, h1, h2, h3]

theorem pass1Step_plain {line : Line} (h1 : matchJsonClass line = none)
    (h2 : matchJsonName line = none) (h3 : matchBareJson line = false)
    (fm fa : Bool) (n? : Option Line) (r : Pass1Out) :
    pass1Step fm fa line n? r = { r with out := line :: r.out } := by
  simp [pass1Step, h1, h2, h3]

/-! ### Structure of the pass-1 output -/

theorem pass1Step_out_cases (fm fa : Bool) (line : Line) (n? : Option Line)
    (r : Pass1Out) :
    ∀ l ∈ (pass1Step fm fa line n? r).out,
      l ∈ r.out
      ∨ (l = line ∧ matchJsonClass line = none ∧ matchJsonName line = none ∧
          matchBareJson line = false)
      ∨ (∃ ind, (∀ c ∈ ind, isPySpace c = true) ∧
          (l = serializableLine ind ∨ ∃ nm, l = serialNameLine ind nm)) := by
  intro l hl
  cases h1 : matchJsonClass line with
  | some ind =>
    rw [pass1Step_jsonClass h1] at hl
    simp only [List.mem_cons] at hl
    rcases hl with rfl | hl
    · exact Or.inr (Or.inr ⟨ind, matchJsonClass_ind h1, Or.inl rfl⟩)
    · exact Or.inl hl
  | none =>
    cases h2 : matchJsonName line with
    | some v =>
      obtain ⟨ind, nm⟩ := v
      have hind := matchJsonName_ind h2
      cases fa with
      | true =>
        rw [pass1Step_named_fixAll h1 h2] at hl
        simp only [List.mem_cons] at hl
        rcases hl with rfl | hl
        · exact Or.inr (Or.inr ⟨ind, hind, Or.inr ⟨nm, rfl⟩⟩)
        · exact Or.inl hl
      | false =>
        cases n? with
        | none => rw [pass1Step_named_noNext h1 h2] at hl; exact Or.inl hl
        | some next =>
          cases h3 : matchValDecl next with
          | none => rw [pass1Step_named_malformed h1 h2 h3] at hl; exact Or.inl hl
          | some w =>
            obtain ⟨i2, f⟩ := w
            by_cases h4 : camel_to_snake f = nm
            · rw [pass1Step_named_matching h1 h2 h3 h4] at hl; exact Or.inl hl
            · cases fm with
              | true =>
                rw [pass1Step_named_mismatch_fix h1 h2 h3 h4] at hl
                simp only [List.mem_cons] at hl
                rcases hl with rfl | hl
                · exact Or.inr (Or.inr ⟨ind, hind, Or.inr ⟨nm, rfl⟩⟩)
                · exact Or.inl hl
              | false =>
                rw [pass1Step_named_mismatch_strict h1 h2 h3 h4] at hl; exact Or.inl hl
    | none =>
      cases h3 : matchBareJson line with
      | true => rw [pass1Step_bare h1 h2 h3] at hl; exact Or.inl hl
      | false =>
        rw [pass1Step_plain h1 h2 h3] at hl
        simp only [List.mem_cons] at hl
        rcases hl with rfl | hl
        · exact Or.inr (Or.inl ⟨rfl, rfl, rfl, rfl⟩)
        · exact Or.inl hl

theorem pass1_out_mem {fm fa : Bool} : ∀ {ls : List Line} {l : Line},
    l ∈ (pass1 fm fa ls).out →
    (l ∈ ls ∧ matchJsonClass l = none ∧ matchJsonName l = none ∧
      matchBareJson l = false)
    ∨ (∃ ind, (∀ c ∈ ind, isPySpace c = true) ∧
        (l = serializableLine ind ∨ ∃ nm, l = serialNameLine ind nm)) := by
  intro ls
  induction ls with
  | nil => intro l h; simp [pass1] at h
  | cons x rest ih =>
    intro l h
    rw [pass1_cons] at h
    rcases pass1Step_out_cases fm fa x rest.head? (pass1 fm fa rest) l h with h' | h' | h'
    · rcases ih h' with ⟨hm, hrest⟩ | hr
      · exact Or.inl ⟨List.mem_cons_of_mem _ hm, hrest⟩
      · exact Or.inr hr
    · obtain ⟨rfl, ha, hb, hc⟩ := h'
      exact Or.inl ⟨by simp, ha, hb, hc⟩
    · exact Or.inr h'

theorem pass1_out_not_legacy {fm fa : Bool} {ls : List Line} {l : Line}
    (h : l ∈ (pass1 fm fa ls).out) :
    matchJsonClass l = none ∧ matchJsonName l = none ∧ matchBareJson l = false := by
  rcases pass1_out_mem h with ⟨_, ha, hb, hc⟩ | ⟨ind, hs, hrep⟩
  · exact ⟨ha, hb, hc⟩
  · rcases hrep with rfl | ⟨nm, rfl⟩
    · have hr := (repl_not_legacy hs []).1
      exact ⟨hr.1, hr.2.1, hr.2.2.1⟩
    · have hr := (repl_not_legacy hs nm).2
      exact ⟨hr.1, hr.2.1, hr.2.2.1⟩

theorem pass1_out_moshi_mem {fm fa : Bool} {ls : List Line} {l : Line}
    (h : l ∈ (pass1 fm fa ls).out) (hm : isMoshiImport l = true) : l ∈ ls := by
  rcases pass1_out_mem h with ⟨hmem, _⟩ | ⟨ind, hs, hrep⟩
  · exact hmem
  · exfalso
    rcases hrep with rfl | ⟨nm, rfl⟩
    · rw [(repl_not_legacy hs []).1.2.2.2] at hm; cases hm
    · rw [(repl_not_legacy hs nm).2.2.2.2] at hm; cases hm

/-- Pass 1 is the identity (with clean stats) on a list of lines matching
none of the three legacy annotation patterns. -/
theorem pass1_id {fm fa : Bool} : ∀ {ls : List Line},
    (∀ l ∈ ls, matchJsonClass l = none ∧ matchJsonName l = none ∧
      matchBareJson l = false) →
    pass1 fm fa ls = ⟨ls, false, 0, 0, false, false, []⟩ := by
  intro ls
  induction ls with
  | nil => intro _; rfl
  | cons x rest ih =>
    intro h
    have hx := h x (by simp)
    rw [pass1_cons, ih (fun l hl => h l (by simp [hl])),
      pass1Step_plain hx.1 hx.2.1 hx.2.2]

/-- If pass 1 reports no change and no error, it was the identity. -/
theorem pass1_unchanged {fm fa : Bool} : ∀ {ls : List Line},
    (pass1 fm fa ls).changed = false → (pass1 fm fa ls).errors = [] →
    pass1 fm fa ls = ⟨ls, false, 0, 0, false, false, []⟩ := by
  intro ls
  induction ls with
  | nil => intro _ _; rfl
  | cons x rest ih =>
    intro hch herr
    rw [pass1_cons] at hch herr ⊢
    cases h1 : matchJsonClass x with
    | some ind =>
      exfalso
      rw [pass1Step_jsonClass h1] at hch
      simp at hch
      have hind := matchJsonClass_ind h1
      have hn : matchJsonClass (serializableLine ind) = none := (repl_not_legacy hind []).1.1
      rw [← hch.2] at hn
      rw [h1] at hn
      cases hn
    | none =>
      cases h2 : matchJsonName x with
      | some v =>
        obtain ⟨ind, nm⟩ := v
        exfalso
        cases fa with
        | true => rw [pass1Step_named_fixAll h1 h2] at hch; simp at hch
        | false =>
          cases hn : rest.head? with
          | none => rw [hn, pass1Step_named_noNext h1 h2] at herr; simp at herr
          | some next =>
            rw [hn] at hch herr
            cases h3 : matchValDecl next with
            | none => rw [pass1Step_named_malformed h1 h2 h3] at herr; simp at herr
            | some w =>
              obtain ⟨i2, f⟩ := w
              by_cases h4 : camel_to_snake f = nm
              · rw [pass1Step_named_matching h1 h2 h3 h4] at hch; simp at hch
              · cases fm with
                | true => rw [pass1Step_named_mismatch_fix h1 h2 h3 h4] at hch; simp at hch
                | false =>
                  rw [pass1Step_named_mismatch_strict h1 h2 h3 h4] at herr
                  simp at herr
      | none =>
        cases h3 : matchBareJson x with
        | true => exfalso; rw [pass1Step_bare h1 h2 h3] at hch; simp at hch
        | false =>
          rw [pass1Step_plain h1 h2 h3] at hch herr ⊢
          rw [ih hch herr]

/-- If pass 1 reports a change, some input line matched a legacy pattern. -/
theorem pass1_changed_mem {fm fa : Bool} : ∀ {ls : List Line},
    (pass1 fm fa ls).changed = true →
    ∃ l ∈ ls, ¬(matchJsonClass l = none ∧ matchJsonName l = none ∧
      matchBareJson l = false) := by
  intro ls
  induction ls with
  | nil => intro h; simp [pass1] at h
  | cons x rest ih =>
    intro h
    rw [pass1_cons] at h
    cases h1 : matchJsonClass x with
    | some ind => exact ⟨x, by simp, by simp [h1]⟩
    | none =>
      cases h2 : matchJsonName x with
      | some v => exact ⟨x, by simp, by simp [h2]⟩
      | none =>
        cases h3 : matchBareJson x with
        | true => exact ⟨x, by simp, by simp [h3]⟩
        | false =>
          rw [pass1Step_plain h1 h2 h3] at h
          obtain ⟨l, hl, hp⟩ := ih h
          exact ⟨l, by simp [hl], hp⟩

/-! ### Facts about `pyInsert` and the import-insertion phase -/

theorem pyInsert_mem {α : Type} {a x : α} {xs : List α} {i : Nat} :
    a ∈ pyInsert xs i x ↔ a = x ∨ a ∈ xs := by
  unfold pyInsert
  simp only [List.mem_append, List.mem_cons]
  constructor
  · rintro (h | h | h)
    · exact Or.inr (List.take_subset _ _ h)
    · exact Or.inl h
    · exact Or.inr (List.drop_subset _ _ h)
  · rintro (rfl | h)
    · exact Or.inr (Or.inl rfl)
    · rw [← List.take_append_drop i xs] at h
      rcases List.mem_append.mp h with h | h
      · exact Or.inl h
      · exact Or.inr (Or.inr h)

theorem pyInsert_self {α : Type} (xs : List α) (i : Nat) (x : α) :
    x ∈ pyInsert xs i x := by
  unfold pyInsert
  simp

theorem pyInsert_length {α : Type} (xs : List α) (i : Nat) (x : α) :
    (pyInsert xs i x).length = xs.length + 1 := by
  unfold pyInsert
  simp only [List.length_append, List.length_cons, List.length_take, List.length_drop]
  omega

theorem pyInsert_sublist {α : Type} (xs : List α) (i : Nat) (x : α) :
    List.Sublist xs (pyInsert xs i x) := by
  unfold pyInsert
  conv_lhs => rw [← List.take_append_drop i xs]
  exact (List.sublist_cons_self x (xs.drop i)).append_left _

theorem ite_eq_swap (a x : Line) : (if x = a then (1 : Nat) else 0) = (if a = x then 1 else 0) := by
  by_cases h : a = x
  · simp [h]
  · rw [if_neg (fun he => h he.symm), if_neg h]

theorem pyInsert_count {a x : Line} {xs : List Line} {i : Nat} :
    (pyInsert xs i x).count a = xs.count a + (if a = x then 1 else 0) := by
  unfold pyInsert
  rw [List.count_append, List.count_cons]
  conv_rhs => rw [← List.take_append_drop i xs, List.count_append]
  simp only [beq_iff_eq]
  rw [ite_eq_swap a x]
  omega

theorem insertImport_mem {a imp : Line} {res : List Line} {li pkg : Option Nat}
    (h : a ∈ (insertImport res li pkg imp).1) : a = imp ∨ a ∈ res := by
  unfold insertImport at h
  rcases li with _ | k
  · rcases pkg with _ | p
    · rcases List.mem_cons.mp h with h | h
      · exact Or.inl h
      · exact Or.inr h
    · exact pyInsert_mem.mp h
  · exact pyInsert_mem.mp h

theorem insertImport_self (imp : Line) (res : List Line) (li pkg : Option Nat) :
    imp ∈ (insertImport res li pkg imp).1 := by
  unfold insertImport
  rcases li with _ | k
  · rcases pkg with _ | p
    · simp
    · exact pyInsert_self _ _ _
  · exact pyInsert_self _ _ _

theorem insertImport_sub {a : Line} {res : List Line} (li pkg : Option Nat)
    (imp : Line) (h : a ∈ res) : a ∈ (insertImport res li pkg imp).1 := by
  unfold insertImport
  rcases li with _ | k
  · rcases pkg with _ | p
    · exact List.mem_cons_of_mem _ h
    · exact pyInsert_mem.mpr (Or.inr h)
  · exact pyInsert_mem.mpr (Or.inr h)

theorem insertImport_length (res : List Line) (li pkg : Option Nat) (imp : Line) :
    (insertImport res li pkg imp).1.length = res.length + 1 := by
  unfold insertImport
  rcases li with _ | k
  · rcases pkg with _ | p
    · simp
    · exact pyInsert_length _ _ _
  · exact pyInsert_length _ _ _

theorem insertImport_count (a : Line) (res : List Line) (li pkg : Option Nat)
    (imp : Line) :
    (insertImport res li pkg imp).1.count a =
      res.count a + (if a = imp then 1 else 0) := by
  unfold insertImport
  rcases li with _ | k
  · rcases pkg with _ | p
    · rw [List.count_cons]
      simp only [beq_iff_eq]
      rw [ite_eq_swap a imp]
    · exact pyInsert_count
  · exact pyInsert_count

theorem insertPhase_mem {a : Line} {r0 : List Line} {li pkg : Option Nat}
    {ds dn : Bool} (h : a ∈ insertPhase r0 li pkg ds dn) :
    a ∈ r0 ∨ a = serImportLine ∨ a = snImportLine := by
  unfold insertPhase at h
  cases ds <;> cases dn <;> simp only [Bool.false_eq_true, if_false, if_true] at h
  · exact Or.inl h
  · rcases insertImport_mem h with h | h
    · exact Or.inr (Or.inr h)
    · exact Or.inl h
  · rcases insertImport_mem h with h | h
    · exact Or.inr (Or.inl h)
    · exact Or.inl h
  · rcases insertImport_mem h with h | h
    · exact Or.inr (Or.inr h)
    · rcases insertImport_mem h with h | h
      · exact Or.inr (Or.inl h)
      · exact Or.inl h

theorem insertPhase_sub {a : Line} {r0 : List Line} (li pkg : Option Nat)
    (ds dn : Bool) (h : a ∈ r0) : a ∈ insertPhase r0 li pkg ds dn := by
  unfold insertPhase
  cases ds <;> cases dn <;> simp only [Bool.false_eq_true, if_false, if_true]
  · exact h
  · exact insertImport_sub _ _ _ h
  · exact insertImport_sub _ _ _ h
  · exact insertImport_sub _ _ _ (insertImport_sub _ _ _ h)

theorem insertPhase_ser_mem (r0 : List Line) (li pkg : Option Nat) (dn : Bool) :
    serImportLine ∈ insertPhase r0 li pkg true dn := by
  unfold insertPhase
  cases dn <;> simp only [Bool.false_eq_true, if_false, if_true]
  · exact insertImport_self _ _ _ _
  · exact insertImport_sub _ _ _ (insertImport_self _ _ _ _)

theorem insertPhase_sn_mem (r0 : List Line) (li pkg : Option Nat) (ds : Bool) :
    snImportLine ∈ insertPhase r0 li pkg ds true := by
  unfold insertPhase
  cases ds <;> simp only [Bool.false_eq_true, if_false, if_true]
  · exact insertImport_self _ _ _ _
  · exact insertImport_self _ _ _ _

theorem insertPhase_length (r0 : List Line) (li pkg : Option Nat) (ds dn : Bool) :
    (insertPhase r0 li pkg ds dn).length =
      r0.length + (if ds then 1 else 0) + (if dn then 1 else 0) := by
  unfold insertPhase
  cases ds <;> cases dn <;>
    simp [insertImport_length]

theorem insertPhase_sublist (r0 : List Line) (li pkg : Option Nat) (ds dn : Bool) :
    List.Sublist r0 (insertPhase r0 li pkg ds dn) := by
  unfold insertPhase
  have h1 : ∀ (res : List Line) (a b : Option Nat) (imp : Line),
      List.Sublist res (insertImport res a b imp).1 := by
    intro res a b imp
    unfold insertImport
    rcases a with _ | k
    · rcases b with _ | p
      · exact List.sublist_cons_self _ _
      · exact pyInsert_sublist _ _ _
    · exact pyInsert_sublist _ _ _
  cases ds <;> cases dn <;> simp only [Bool.false_eq_true, if_false, if_true]
  · exact List.Sublist.refl _
  · exact h1 _ _ _ _
  · exact h1 _ _ _ _
  · exact (h1 _ _ _ _).trans (h1 _ _ _ _)

/-! ### Moshi import lines and the inserted kotlinx import lines are disjoint -/

theorem importMoshiCore_chars {t s : List Char} (h : importMoshiCore t s = true) :
    ∀ c ∈ s, isPySpace c = true ∨ c ∈ ("import").toList ∨ c ∈ t := by
  unfold importMoshiCore at h
  cases h1 : stripLit ("import").toList s with
  | none => simp only [h1] at h; simp at h
  | some r1 =>
    simp only [h1] at h
    have hs : s = ("import").toList ++ r1 := stripLit_eq_some.mp h1
    by_cases h2 : (r1.takeWhile isPySpace).isEmpty = true
    · rw [if_pos h2] at h; cases h
    · rw [if_neg h2] at h
      cases h3 : stripLit t (r1.dropWhile isPySpace) with
      | none => simp only [h3] at h; simp at h
      | some r3 =>
        simp only [h3] at h
        have hr1 : r1.dropWhile isPySpace = t ++ r3 := stripLit_eq_some.mp h3
        intro c hc
        rw [hs] at hc
        rcases List.mem_append.mp hc with hc | hc
        · exact Or.inr (Or.inl hc)
        · rw [← List.takeWhile_append_dropWhile isPySpace r1] at hc
          rcases List.mem_append.mp hc with hc | hc
          · exact Or.inl (List.mem_takeWhile_imp hc)
          · rw [hr1] at hc
            rcases List.mem_append.mp hc with hc | hc
            · exact Or.inr (Or.inr hc)
            · exact Or.inl (List.all_eq_true.mp h c hc)

theorem isMoshiImport_no_k {l : Line} (h : isMoshiImport l = true) : ¬('k' ∈ l) := by
  intro hk
  have main : ∀ t : List Char, ¬('k' ∈ t) →
      importMoshiCore t (l.dropWhile isPySpace) = true → False := by
    intro t hkt hc
    rw [← List.takeWhile_append_dropWhile isPySpace l] at hk
    rcases List.mem_append.mp hk with hk' | hk'
    · exact absurd (List.mem_takeWhile_imp hk') (by decide)
    · rcases importMoshiCore_chars hc 'k' hk' with hx | hx | hx
      · exact absurd hx (by decide)
      · exact absurd hx (by decide)
      · exact hkt hx
  unfold isMoshiImport matchImportMoshi at h
  simp only [Bool.or_eq_true] at h
  rcases h with h | h
  · exact main _ (by decide) h
  · exact main _ (by decide) h

theorem strip_import_not_moshi {l : Line}
    (h : pyStrip l = serImportBody ∨ pyStrip l = snImportBody) :
    isMoshiImport l = false := by
  cases hb : isMoshiImport l
  · rfl
  · exfalso
    apply isMoshiImport_no_k hb
    apply mem_pyStrip
    rcases h with h | h <;> rw [h] <;> decide

/-! ### The filtering step (`result_lines` construction) -/

theorem mem_resultZero {p : Pass1Out} {l : Line} :
    l ∈ resultZero p ↔ l ∈ p.out ∧ isMoshiImport l = false := by
  unfold resultZero
  rw [List.mem_filter]
  simp

theorem moshiCount_zero {p : Pass1Out} (h : ∀ l ∈ p.out, isMoshiImport l = false) :
    moshiCount p = 0 := by
  unfold moshiCount
  rw [List.length_eq_zero, List.filter_eq_nil_iff]
  intro a ha
  simp [h a ha]

theorem resultZero_of_no_moshi {p : Pass1Out}
    (h : ∀ l ∈ p.out, isMoshiImport l = false) : resultZero p = p.out := by
  unfold resultZero
  rw [List.filter_eq_self]
  intro a ha
  simp [h a ha]

/-! ### Projections of `process_lines` -/

theorem process_lines_out (fm fa : Bool) (ls : List Line) :
    (process_lines fm fa ls).out =
      insertPhase (resultZero (pass1 fm fa ls))
        (lastImportIdx (resultZero (pass1 fm fa ls)))
        (packageIdx (pass1 fm fa ls).out)
        (doSerOf (pass1 fm fa ls)) (doSNOf (pass1 fm fa ls)) := rfl

theorem process_lines_errors (fm fa : Bool) (ls : List Line) :
    (process_lines fm fa ls).errors = (pass1 fm fa ls).errors := rfl

theorem process_lines_changed (fm fa : Bool) (ls : List Line) :
    (process_lines fm fa ls).changed =
      (((pass1 fm fa ls).changed || decide (0 < moshiCount (pass1 fm fa ls)))
        || doSerOf (pass1 fm fa ls) || doSNOf (pass1 fm fa ls)) := rfl

theorem process_lines_serAdded (fm fa : Bool) (ls : List Line) :
    (process_lines fm fa ls).serImportAdded = doSerOf (pass1 fm fa ls) := rfl

theorem process_lines_snAdded (fm fa : Bool) (ls : List Line) :
    (process_lines fm fa ls).snImportAdded = doSNOf (pass1 fm fa ls) := rfl

/-! ### Every line of the final output is clean -/

theorem process_out_mem {fm fa : Bool} {ls : List Line} {l : Line}
    (h : l ∈ (process_lines fm fa ls).out) :
    (l ∈ (pass1 fm fa ls).out ∧ isMoshiImport l = false)
    ∨ l = serImportLine ∨ l = snImportLine := by
  rw [process_lines_out] at h
  rcases insertPhase_mem h with h | h | h
  · exact Or.inl (mem_resultZero.mp h)
  · exact Or.inr (Or.inl h)
  · exact Or.inr (Or.inr h)

theorem process_out_clean {fm fa : Bool} {ls : List Line} {l : Line}
    (h : l ∈ (process_lines fm fa ls).out) :
    matchJsonClass l = none ∧ matchJsonName l = none ∧ matchBareJson l = false ∧
      isMoshiImport l = false := by
  rcases process_out_mem h with ⟨h1, h2⟩ | rfl | rfl
  · have hl := pass1_out_not_legacy h1
    exact ⟨hl.1, hl.2.1, hl.2.2, h2⟩
  · exact ⟨by decide, by decide, by decide, by decide⟩
  · exact ⟨by decide, by decide, by decide, by decide⟩

theorem hasSer_of_needs {p : Pass1Out} (hneeds : needsSerOf p = true)
    (hdo : doSerOf p = false) : hasSerOf p = true := by
  unfold doSerOf at hdo
  rw [hneeds] at hdo
  simp at hdo
  exact hdo

theorem hasSN_of_needs {p : Pass1Out} (hneeds : needsSNOf p = true)
    (hdo : doSNOf p = false) : hasSNOf p = true := by
  unfold doSNOf at hdo
  rw [hneeds] at hdo
  simp at hdo
  exact hdo

/-- Whenever some output line announces a `@Serializable` annotation, the
serialization import is present in the output as well. -/
theorem process_out_ser_closure {fm fa : Bool} {ls : List Line} {l : Line}
    (hl : l ∈ (process_lines fm fa ls).out)
    (hpfx : hasPfx ("@Serializable").toList (pyStrip l) = true) :
    ∃ w ∈ (process_lines fm fa ls).out, pyStrip w = serImportBody := by
  rcases process_out_mem hl with ⟨h1, h2⟩ | rfl | rfl
  · have hr0 : l ∈ resultZero (pass1 fm fa ls) := mem_resultZero.mpr ⟨h1, h2⟩
    have hany : (resultZero (pass1 fm fa ls)).any
        (fun l => hasPfx ("@Serializable").toList (pyStrip l)) = true :=
      List.any_eq_true.mpr ⟨l, hr0, hpfx⟩
    have hneeds : needsSerOf (pass1 fm fa ls) = true := by
      unfold needsSerOf; rw [hany]; simp
    cases hdo : doSerOf (pass1 fm fa ls) with
    | false =>
      have hhas := hasSer_of_needs hneeds hdo
      unfold hasSerOf at hhas
      rw [List.any_eq_true] at hhas
      obtain ⟨w, hw, hwp⟩ := hhas
      have hwp' : pyStrip w = serImportBody := of_decide_eq_true hwp
      have hwm : isMoshiImport w = false := strip_import_not_moshi (Or.inl hwp')
      refine ⟨w, ?_, hwp'⟩
      rw [process_lines_out]
      exact insertPhase_sub _ _ _ _ (mem_resultZero.mpr ⟨hw, hwm⟩)
    | true =>
      refine ⟨serImportLine, ?_, by decide⟩
      rw [process_lines_out, hdo]
      exact insertPhase_ser_mem _ _ _ _
  · exact ⟨serImportLine, hl, by decide⟩
  · exact absurd hpfx (by decide)

/-- Same closure for `@SerialName(` and the rename import. -/
theorem process_out_sn_closure {fm fa : Bool} {ls : List Line} {l : Line}
    (hl : l ∈ (process_lines fm fa ls).out)
    (hpfx : hasPfx ("@SerialName(").toList (pyStrip l) = true) :
    ∃ w ∈ (process_lines fm fa ls).out, pyStrip w = snImportBody := by
  rcases process_out_mem hl with ⟨h1, h2⟩ | rfl | rfl
  · have hr0 : l ∈ resultZero (pass1 fm fa ls) := mem_resultZero.mpr ⟨h1, h2⟩
    have hany : (resultZero (pass1 fm fa ls)).any
        (fun l => hasPfx ("@SerialName(").toList (pyStrip l)) = true :=
      List.any_eq_true.mpr ⟨l, hr0, hpfx⟩
    have hneeds : needsSNOf (pass1 fm fa ls) = true := by
      unfold needsSNOf; rw [hany]; simp
    cases hdo : doSNOf (pass1 fm fa ls) with
    | false =>
      have hhas := hasSN_of_needs hneeds hdo
      unfold hasSNOf at hhas
      rw [List.any_eq_true] at hhas
      obtain ⟨w, hw, hwp⟩ := hhas
      have hwp' : pyStrip w = snImportBody := of_decide_eq_true hwp
      have hwm : isMoshiImport w = false := strip_import_not_moshi (Or.inr hwp')
      refine ⟨w, ?_, hwp'⟩
      rw [process_lines_out]
      exact insertPhase_sub _ _ _ _ (mem_resultZero.mpr ⟨hw, hwm⟩)
    | true =>
      refine ⟨snImportLine, ?_, by decide⟩
      rw [process_lines_out, hdo]
      exact insertPhase_sn_mem _ _ _ _
  · exact absurd hpfx (by decide)
  · exact ⟨snImportLine, hl, by decide⟩

/-- A second application of the transform, in any mode, reports no change
and no error. -/
theorem second_run_noop (fm fa fm2 fa2 : Bool) (ls : List Line) :
    (process_lines fm2 fa2 (process_lines fm fa ls).out).changed = false ∧
    (process_lines fm2 fa2 (process_lines fm fa ls).out).errors = [] := by
  have hclean : ∀ l ∈ (process_lines fm fa ls).out,
      matchJsonClass l = none ∧ matchJsonName l = none ∧ matchBareJson l = false ∧
        isMoshiImport l = false := fun l hl => process_out_clean hl
  have hp2 : pass1 fm2 fa2 (process_lines fm fa ls).out =
      ⟨(process_lines fm fa ls).out, false, 0, 0, false, false, []⟩ :=
    pass1_id (fun l hl => ⟨(hclean l hl).1, (hclean l hl).2.1, (hclean l hl).2.2.1⟩)
  have hmosh : ∀ l ∈ (pass1 fm2 fa2 (process_lines fm fa ls).out).out,
      isMoshiImport l = false := by
    rw [hp2]
    exact fun l hl => (hclean l hl).2.2.2
  have hcount : moshiCount (pass1 fm2 fa2 (process_lines fm fa ls).out) = 0 :=
    moshiCount_zero hmosh
  have hr0 : resultZero (pass1 fm2 fa2 (process_lines fm fa ls).out) =
      (pass1 fm2 fa2 (process_lines fm fa ls).out).out :=
    resultZero_of_no_moshi hmosh
  have hch : (pass1 fm2 fa2 (process_lines fm fa ls).out).changed = false := by
    rw [hp2]
  have hdoSer : doSerOf (pass1 fm2 fa2 (process_lines fm fa ls).out) = false := by
    cases hne : needsSerOf (pass1 fm2 fa2 (process_lines fm fa ls).out) with
    | false => unfold doSerOf; rw [hne]; rfl
    | true =>
      unfold needsSerOf at hne
      rw [hr0, hp2] at hne
      simp only [Bool.false_or] at hne
      rw [List.any_eq_true] at hne
      obtain ⟨w, hw, hwp⟩ := hne
      obtain ⟨v, hv, hvp⟩ := process_out_ser_closure hw hwp
      have hhas : hasSerOf (pass1 fm2 fa2 (process_lines fm fa ls).out) = true := by
        unfold hasSerOf
        rw [hp2]
        exact List.any_eq_true.mpr ⟨v, hv, decide_eq_true hvp⟩
      unfold doSerOf
      rw [hhas]
      simp
  have hdoSN : doSNOf (pass1 fm2 fa2 (process_lines fm fa ls).out) = false := by
    cases hne : needsSNOf (pass1 fm2 fa2 (process_lines fm fa ls).out) with
    | false => unfold doSNOf; rw [hne]; rfl
    | true =>
      unfold needsSNOf at hne
      rw [hr0, hp2] at hne
      simp only [Bool.false_or] at hne
      rw [List.any_eq_true] at hne
      obtain ⟨w, hw, hwp⟩ := hne
      obtain ⟨v, hv, hvp⟩ := process_out_sn_closure hw hwp
      have hhas : hasSNOf (pass1 fm2 fa2 (process_lines fm fa ls).out) = true := by
        unfold hasSNOf
        rw [hp2]
        exact List.any_eq_true.mpr ⟨v, hv, decide_eq_true hvp⟩
      unfold doSNOf
      rw [hhas]
      simp
  constructor
  · rw [process_lines_changed, hdoSer, hdoSN, hcount, hch]
    rfl
  · rw [process_lines_errors, hp2]

/-! ### `changed` tracks output difference (when no error occurred) -/

theorem insertPhase_ff (r0 : List Line) (li pkg : Option Nat) :
    insertPhase r0 li pkg false false = r0 := rfl

theorem pass1Step_out_super (fm fa : Bool) (line : Line) (n? : Option Line)
    (r : Pass1Out) : ∀ l ∈ r.out, l ∈ (pass1Step fm fa line n? r).out := by
  intro l hl
  cases h1 : matchJsonClass line with
  | some ind => rw [pass1Step_jsonClass h1]; exact List.mem_cons_of_mem _ hl
  | none =>
    cases h2 : matchJsonName line with
    | some v =>
      obtain ⟨ind, nm⟩ := v
      cases fa with
      | true => rw [pass1Step_named_fixAll h1 h2]; exact List.mem_cons_of_mem _ hl
      | false =>
        cases n? with
        | none => rw [pass1Step_named_noNext h1 h2]; exact hl
        | some next =>
          cases h3 : matchValDecl next with
          | none => rw [pass1Step_named_malformed h1 h2 h3]; exact hl
          | some w =>
            obtain ⟨i2, f⟩ := w
            by_cases h4 : camel_to_snake f = nm
            · rw [pass1Step_named_matching h1 h2 h3 h4]; exact hl
            · cases fm with
              | true =>
                rw [pass1Step_named_mismatch_fix h1 h2 h3 h4]
                exact List.mem_cons_of_mem _ hl
              | false => rw [pass1Step_named_mismatch_strict h1 h2 h3 h4]; exact hl
    | none =>
      cases h3 : matchBareJson line with
      | true => rw [pass1Step_bare h1 h2 h3]; exact hl
      | false => rw [pass1Step_plain h1 h2 h3]; exact List.mem_cons_of_mem _ hl

theorem pass1_mem_out {fm fa : Bool} : ∀ {ls : List Line} {l : Line}, l ∈ ls →
    matchJsonClass l = none → matchJsonName l = none → matchBareJson l = false →
    l ∈ (pass1 fm fa ls).out := by
  intro ls
  induction ls with
  | nil => intro l hl; cases hl
  | cons x rest ih =>
    intro l hl h1 h2 h3
    rw [pass1_cons]
    rcases List.mem_cons.mp hl with rfl | hl'
    · rw [pass1Step_plain h1 h2 h3]; exact List.mem_cons_self _ _
    · exact pass1Step_out_super _ _ _ _ _ l (ih hl' h1 h2 h3)

/-- With an empty error list, `changed = false` forces the output to be the
input unchanged. -/
theorem process_unchanged {fm fa : Bool} {ls : List Line}
    (hch : (process_lines fm fa ls).changed = false)
    (herr : (process_lines fm fa ls).errors = []) :
    (process_lines fm fa ls).out = ls := by
  rw [process_lines_changed] at hch
  simp only [Bool.or_eq_false_iff] at hch
  obtain ⟨⟨⟨hpch, hmc⟩, hser⟩, hsn⟩ := hch
  rw [process_lines_errors] at herr
  have hp := pass1_unchanged hpch herr
  have hmc0 : moshiCount (pass1 fm fa ls) = 0 := by
    rcases Nat.eq_zero_or_pos (moshiCount (pass1 fm fa ls)) with h | h
    · exact h
    · rw [decide_eq_true h] at hmc; cases hmc
  have hnomoshi : ∀ l ∈ (pass1 fm fa ls).out, isMoshiImport l = false := by
    intro l hl
    unfold moshiCount at hmc0
    rw [List.length_eq_zero, List.filter_eq_nil_iff] at hmc0
    have := hmc0 l hl
    simp at this
    exact this
  rw [process_lines_out, hser, hsn, insertPhase_ff, resultZero_of_no_moshi hnomoshi, hp]

/-- If `changed = true`, the output differs from the input. -/
theorem process_changed_ne {fm fa : Bool} {ls : List Line}
    (hch : (process_lines fm fa ls).changed = true) :
    (process_lines fm fa ls).out ≠ ls := by
  intro heq
  rw [process_lines_changed] at hch
  simp only [Bool.or_eq_true] at hch
  rcases hch with ((hpch | hmc) | hser) | hsn
  · obtain ⟨l, hl, hlp⟩ := pass1_changed_mem hpch
    rw [← heq] at hl
    have := process_out_clean hl
    exact hlp ⟨this.1, this.2.1, this.2.2.1⟩
  · rw [decide_eq_true_eq] at hmc
    unfold moshiCount at hmc
    rcases List.exists_mem_of_length_pos hmc with ⟨m, hm⟩
    have hm' := List.mem_filter.mp hm
    have hmls : m ∈ ls := pass1_out_moshi_mem hm'.1 hm'.2
    rw [← heq] at hmls
    have := (process_out_clean hmls).2.2.2
    rw [this] at hm'
    cases hm'.2
  · have hmem : serImportLine ∈ (process_lines fm fa ls).out := by
      rw [process_lines_out, hser]
      exact insertPhase_ser_mem _ _ _ _
    rw [heq] at hmem
    have hout : serImportLine ∈ (pass1 fm fa ls).out :=
      pass1_mem_out hmem (by decide) (by decide) (by decide)
    have hhas : hasSerOf (pass1 fm fa ls) = true := by
      unfold hasSerOf
      exact List.any_eq_true.mpr ⟨serImportLine, hout, by decide⟩
    unfold doSerOf at hser
    rw [hhas] at hser
    simp at hser
  · have hmem : snImportLine ∈ (process_lines fm fa ls).out := by
      rw [process_lines_out, hsn]
      exact insertPhase_sn_mem _ _ _ _
    rw [heq] at hmem
    have hout : snImportLine ∈ (pass1 fm fa ls).out :=
      pass1_mem_out hmem (by decide) (by decide) (by decide)
    have hhas : hasSNOf (pass1 fm fa ls) = true := by
      unfold hasSNOf
      exact List.any_eq_true.mpr ⟨snImportLine, hout, by decide⟩
    unfold doSNOf at hsn
    rw [hhas] at hsn
    simp at hsn

/-! ### Occurrence counts of the two kotlinx import lines -/

theorem pass1_count_preserved {fm fa : Bool} {t : Line}
    (h1 : matchJsonClass t = none) (h2 : matchJsonName t = none)
    (h3 : matchBareJson t = false)
    (hne : ∀ ind nm : Line, (∀ c ∈ ind, isPySpace c = true) →
      t ≠ serializableLine ind ∧ t ≠ serialNameLine ind nm) :
    ∀ ls : List Line, (pass1 fm fa ls).out.count t = ls.count t := by
  intro ls
  induction ls with
  | nil => rfl
  | cons x rest ih =>
    rw [pass1_cons]
    cases hx1 : matchJsonClass x with
    | some ind =>
      have htx : t ≠ x := fun he => by rw [he, hx1] at h1; cases h1
      have hts : t ≠ serializableLine ind := (hne ind [] (matchJsonClass_ind hx1)).1
      rw [pass1Step_jsonClass hx1]
      show List.count t (serializableLine ind :: (pass1 fm fa rest).out) =
        List.count t (x :: rest)
      rw [List.count_cons_of_ne hts, List.count_cons_of_ne htx, ih]
    | none =>
      cases hx2 : matchJsonName x with
      | some v =>
        obtain ⟨ind, nm⟩ := v
        have htx : t ≠ x := fun he => by rw [he, hx2] at h2; cases h2
        have htn : t ≠ serialNameLine ind nm := (hne ind nm (matchJsonName_ind hx2)).2
        cases fa with
        | true =>
          rw [pass1Step_named_fixAll hx1 hx2]
          show List.count t (serialNameLine ind nm :: (pass1 fm true rest).out) =
            List.count t (x :: rest)
          rw [List.count_cons_of_ne htn, List.count_cons_of_ne htx, ih]
        | false =>
          cases hn : rest.head? with
          | none =>
            rw [pass1Step_named_noNext hx1 hx2]
            show List.count t (pass1 fm false rest).out = List.count t (x :: rest)
            rw [List.count_cons_of_ne htx, ih]
          | some next =>
            cases hx3 : matchValDecl next with
            | none =>
              rw [pass1Step_named_malformed hx1 hx2 hx3]
              show List.count t (pass1 fm false rest).out = List.count t (x :: rest)
              rw [List.count_cons_of_ne htx, ih]
            | some w =>
              obtain ⟨i2, f⟩ := w
              by_cases h4 : camel_to_snake f = nm
              · rw [pass1Step_named_matching hx1 hx2 hx3 h4]
                show List.count t (pass1 fm false rest).out = List.count t (x :: rest)
                rw [List.count_cons_of_ne htx, ih]
              · cases fm with
                | true =>
                  rw [pass1Step_named_mismatch_fix hx1 hx2 hx3 h4]
                  show List.count t (serialNameLine ind nm :: (pass1 true false rest).out) =
                    List.count t (x :: rest)
                  rw [List.count_cons_of_ne htn, List.count_cons_of_ne htx, ih]
                | false =>
                  rw [pass1Step_named_mismatch_strict hx1 hx2 hx3 h4]
                  show List.count t (pass1 false false rest).out = List.count t (x :: rest)
                  rw [List.count_cons_of_ne htx, ih]
      | none =>
        cases hx3 : matchBareJson x with
        | true =>
          have htx : t ≠ x := fun he => by rw [he, hx3] at h3; cases h3
          rw [pass1Step_bare hx1 hx2 hx3]
          show List.count t (pass1 fm fa rest).out = List.count t (x :: rest)
          rw [List.count_cons_of_ne htx, ih]
        | false =>
          rw [pass1Step_plain hx1 hx2 hx3]
          show List.count t (x :: (pass1 fm fa rest).out) = List.count t (x :: rest)
          rw [List.count_cons, List.count_cons, ih]

theorem serImportLine_not_repl : ∀ ind nm : Line, (∀ c ∈ ind, isPySpace c = true) →
    serImportLine ≠ serializableLine ind ∧ serImportLine ≠ serialNameLine ind nm := by
  intro ind nm hsp
  constructor
  · intro he
    rw [serializableLine_shape] at he
    exact space_append_at_ne hsp (by decide) (by decide) _ _ he.symm
  · intro he
    rw [serialNameLine_shape] at he
    exact space_append_at_ne hsp (by decide) (by decide) _ _ he.symm

theorem snImportLine_not_repl : ∀ ind nm : Line, (∀ c ∈ ind, isPySpace c = true) →
    snImportLine ≠ serializableLine ind ∧ snImportLine ≠ serialNameLine ind nm := by
  intro ind nm hsp
  constructor
  · intro he
    rw [serializableLine_shape] at he
    exact space_append_at_ne hsp (by decide) (by decide) _ _ he.symm
  · intro he
    rw [serialNameLine_shape] at he
    exact space_append_at_ne hsp (by decide) (by decide) _ _ he.symm

theorem insertPhase_count_ser (r0 : List Line) (li pkg : Option Nat) (ds dn : Bool) :
    (insertPhase r0 li pkg ds dn).count serImportLine =
      r0.count serImportLine + (if ds then 1 else 0) := by
  have hne : serImportLine ≠ snImportLine := by decide
  unfold insertPhase
  cases ds <;> cases dn <;> simp [insertImport_count, hne]

theorem insertPhase_count_sn (r0 : List Line) (li pkg : Option Nat) (ds dn : Bool) :
    (insertPhase r0 li pkg ds dn).count snImportLine =
      r0.count snImportLine + (if dn then 1 else 0) := by
  have hne : snImportLine ≠ serImportLine := by decide
  unfold insertPhase
  cases ds <;> cases dn <;> simp [insertImport_count, hne]

theorem resultZero_count_ser (p : Pass1Out) :
    (resultZero p).count serImportLine = p.out.count serImportLine := by
  unfold resultZero
  exact List.count_filter (by decide)

theorem resultZero_count_sn (p : Pass1Out) :
    (resultZero p).count snImportLine = p.out.count snImportLine := by
  unfold resultZero
  exact List.count_filter (by decide)

theorem process_count_ser (fm fa : Bool) (ls : List Line) :
    (process_lines fm fa ls).out.count serImportLine =
      ls.count serImportLine +
        (if (process_lines fm fa ls).serImportAdded then 1 else 0) := by
  rw [process_lines_out, process_lines_serAdded, insertPhase_count_ser,
    resultZero_count_ser,
    pass1_count_preserved (by decide) (by decide) (by decide) serImportLine_not_repl]

theorem process_count_sn (fm fa : Bool) (ls : List Line) :
    (process_lines fm fa ls).out.count snImportLine =
      ls.count snImportLine +
        (if (process_lines fm fa ls).snImportAdded then 1 else 0) := by
  rw [process_lines_out, process_lines_snAdded, insertPhase_count_sn,
    resultZero_count_sn,
    pass1_count_preserved (by decide) (by decide) (by decide) snImportLine_not_repl]

theorem process_ser_added_zero {fm fa : Bool} {ls : List Line}
    (h : (process_lines fm fa ls).serImportAdded = true) :
    ls.count serImportLine = 0 := by
  rw [process_lines_serAdded] at h
  unfold doSerOf at h
  have hhas : hasSerOf (pass1 fm fa ls) = false := by
    cases hh : hasSerOf (pass1 fm fa ls)
    · rfl
    · rw [hh] at h; simp at h
  rw [← @pass1_count_preserved fm fa serImportLine (by decide) (by decide) (by decide)
    serImportLine_not_repl ls]
  rw [List.count_eq_zero]
  intro hmem
  unfold hasSerOf at hhas
  rw [← Bool.not_eq_true, List.any_eq_true] at hhas
  exact hhas ⟨serImportLine, hmem, by decide⟩

theorem process_sn_added_zero {fm fa : Bool} {ls : List Line}
    (h : (process_lines fm fa ls).snImportAdded = true) :
    ls.count snImportLine = 0 := by
  rw [process_lines_snAdded] at h
  unfold doSNOf at h
  have hhas : hasSNOf (pass1 fm fa ls) = false := by
    cases hh : hasSNOf (pass1 fm fa ls)
    · rfl
    · rw [hh] at h; simp at h
  rw [← @pass1_count_preserved fm fa snImportLine (by decide) (by decide) (by decide)
    snImportLine_not_repl ls]
  rw [List.count_eq_zero]
  intro hmem
  unfold hasSNOf at hhas
  rw [← Bool.not_eq_true, List.any_eq_true] at hhas
  exact hhas ⟨snImportLine, hmem, by decide⟩

/-! ### Verbatim lines survive in order -/

theorem pass1Step_out_sublist (fm fa : Bool) (line : Line) (n? : Option Line)
    (r : Pass1Out) : List.Sublist r.out (pass1Step fm fa line n? r).out := by
  cases h1 : matchJsonClass line with
  | some ind => rw [pass1Step_jsonClass h1]; exact List.sublist_cons_self _ _
  | none =>
    cases h2 : matchJsonName line with
    | some v =>
      obtain ⟨ind, nm⟩ := v
      cases fa with
      | true => rw [pass1Step_named_fixAll h1 h2]; exact List.sublist_cons_self _ _
      | false =>
        cases n? with
        | none => rw [pass1Step_named_noNext h1 h2]
        | some next =>
          cases h3 : matchValDecl next with
          | none => rw [pass1Step_named_malformed h1 h2 h3]
          | some w =>
            obtain ⟨i2, f⟩ := w
            by_cases h4 : camel_to_snake f = nm
            · rw [pass1Step_named_matching h1 h2 h3 h4]
            · cases fm with
              | true =>
                rw [pass1Step_named_mismatch_fix h1 h2 h3 h4]
                exact List.sublist_cons_self _ _
              | false =>
                rw [pass1Step_named_mismatch_strict h1 h2 h3 h4]
    | none =>
      cases h3 : matchBareJson line with
      | true => rw [pass1Step_bare h1 h2 h3]
      | false => rw [pass1Step_plain h1 h2 h3]; exact List.sublist_cons_self _ _

theorem pass1_plain_sublist (fm fa : Bool) : ∀ ls : List Line,
    List.Sublist (ls.filter notLegacy) (pass1 fm fa ls).out := by
  intro ls
  induction ls with
  | nil => simp [pass1]
  | cons x rest ih =>
    rw [pass1_cons, List.filter_cons]
    cases hx : notLegacy x with
    | false =>
      simp only [Bool.false_eq_true, if_false]
      exact ih.trans (pass1Step_out_sublist fm fa x rest.head? _)
    | true =>
      simp only [if_true]
      unfold notLegacy at hx
      simp only [Bool.and_eq_true, Option.isNone_iff_eq_none, Bool.not_eq_true'] at hx
      rw [pass1Step_plain hx.1.1 hx.1.2 hx.2]
      exact List.Sublist.cons₂ _ ih

theorem process_plain_sublist (fm fa : Bool) (ls : List Line) :
    List.Sublist (ls.filter isPlainLine) (process_lines fm fa ls).out := by
  have h2 := (pass1_plain_sublist fm fa ls).filter (fun l => !(isMoshiImport l))
  rw [List.filter_filter] at h2
  have heq : ls.filter (fun a => (!(isMoshiImport a)) && notLegacy a) =
      ls.filter isPlainLine := by
    apply List.filter_congr
    intro a _
    unfold isPlainLine
    rw [Bool.and_comm]
  rw [heq] at h2
  rw [process_lines_out]
  exact h2.trans (insertPhase_sublist _ _ _ _ _)

/-! ### Anchor bookkeeping for the import inserter -/

theorem lastIdxP_none {α : Type} {p : α → Bool} : ∀ {ls : List α},
    lastIdxP p ls = none → ∀ a ∈ ls, p a = false := by
  intro ls
  induction ls with
  | nil => intro _ a ha; cases ha
  | cons x xs ih =>
    intro h a ha
    unfold lastIdxP at h
    cases hx : lastIdxP p xs with
    | some k => rw [hx] at h; cases h
    | none =>
      rw [hx] at h
      rcases List.mem_cons.mp ha with rfl | ha'
      · cases hpa : p a
        · rfl
        · rw [if_pos hpa] at h; cases h
      · exact ih hx a ha'

theorem lastIdxP_spec {α : Type} {p : α → Bool} (d : α) : ∀ {ls : List α} {k : Nat},
    lastIdxP p ls = some k →
    k < ls.length ∧ p (ls.getD k d) = true ∧
      ∀ j, k < j → j < ls.length → p (ls.getD j d) = false := by
  intro ls
  induction ls with
  | nil => intro k h; cases h
  | cons x xs ih =>
    intro k h
    unfold lastIdxP at h
    cases hx : lastIdxP p xs with
    | some k' =>
      rw [hx] at h
      obtain rfl : k' + 1 = k := by cases h; rfl
      obtain ⟨hl, hp, hj⟩ := ih hx
      refine ⟨by simp; omega, by simpa using hp, ?_⟩
      intro j hj1 hj2
      cases j with
      | zero => omega
      | succ j' =>
        rw [List.getD_cons_succ]
        exact hj j' (by omega) (by simp at hj2; omega)
    | none =>
      rw [hx] at h
      cases hpx : p x
      · rw [if_neg (by simp [hpx])] at h; cases h
      · rw [if_pos hpx] at h
        obtain rfl : 0 = k := by cases h; rfl
        refine ⟨by simp, by simpa using hpx, ?_⟩
        intro j hj1 hj2
        cases j with
        | zero => omega
        | succ j' =>
          rw [List.getD_cons_succ]
          have hmem : xs.getD j' d ∈ xs := by
            rw [List.getD_eq_getElem?_getD]
            have hlt : j' < xs.length := by simp at hj2; omega
            rw [List.getElem?_eq_getElem hlt]
            exact List.getElem_mem _
          exact lastIdxP_none hx _ hmem

theorem firstIdxP_spec {α : Type} {p : α → Bool} (d : α) : ∀ {ls : List α} {k : Nat},
    firstIdxP p ls = some k →
    k < ls.length ∧ p (ls.getD k d) = true ∧
      ∀ j, j < k → p (ls.getD j d) = false := by
  intro ls
  induction ls with
  | nil => intro k h; cases h
  | cons x xs ih =>
    intro k h
    unfold firstIdxP at h
    cases hpx : p x
    · rw [if_neg (by simp [hpx])] at h
      cases hx : firstIdxP p xs with
      | none => rw [hx] at h; cases h
      | some k' =>
        rw [hx] at h
        obtain rfl : k' + 1 = k := by cases h; rfl
        obtain ⟨hl, hp, hj⟩ := ih hx
        refine ⟨by simp; omega, by simpa using hp, ?_⟩
        intro j hj1
        cases j with
        | zero => simpa using hpx
        | succ j' =>
          rw [List.getD_cons_succ]
          exact hj j' (by omega)
    · rw [if_pos hpx] at h
      obtain rfl : 0 = k := by cases h; rfl
      exact ⟨by simp, by simpa using hpx, fun j hj => by omega⟩

/-- The inserted element sits at position `min i xs.length` (Python
`list.insert` clamps at the end). -/
theorem pyInsert_getD {α : Type} (xs : List α) (i : Nat) (x d : α) :
    (pyInsert xs i x).getD (min i xs.length) d = x := by
  unfold pyInsert
  rw [List.getD_eq_getElem?_getD, List.getElem?_append_right (by simp)]
  simp

/-! ### Support for the named-marker claims -/

theorem stripLit_self_append (p r : List Char) : stripLit p (p ++ r) = some r :=
  stripLit_eq_some.mpr rfl

theorem jsonClassCore_jsonParen (r : List Char) :
    jsonClassCore ('@' :: 'J' :: 's' :: 'o' :: 'n' :: '(' :: r) = false := by
  simp [jsonClassCore, stripLit]

theorem matchJsonName_not_jsonClass {l : Line} {v : Line × Line}
    (h : matchJsonName l = some v) : matchJsonClass l = none := by
  unfold matchJsonName at h
  unfold matchJsonClass
  cases hc : jsonNameCore (l.dropWhile isPySpace) with
  | none => rw [hc] at h; cases h
  | some nm =>
    unfold jsonNameCore at hc
    cases h0 : stripLit ("@Json(").toList (l.dropWhile isPySpace) with
    | none => rw [h0] at hc; cases hc
    | some r1 =>
      have hs : l.dropWhile isPySpace = ("@Json(").toList ++ r1 := stripLit_eq_some.mp h0
      have hs' : l.dropWhile isPySpace = '@' :: 'J' :: 's' :: 'o' :: 'n' :: '(' :: r1 := hs
      rw [hs', jsonClassCore_jsonParen]
      rfl

/-- Claim-C3 core equation: in strict mode a named field marker line is
handled exactly by `strictNamedRhs` applied to the lookahead line and the
result of scanning the remaining lines. -/
theorem pass1_strict_named {line ind nm : Line}
    (h : matchJsonName line = some (ind, nm)) (rest : List Line) :
    pass1 false false (line :: rest) =
      strictNamedRhs nm rest.head? (pass1 false false rest) := by
  have h1 : matchJsonClass line = none := matchJsonName_not_jsonClass h
  rw [pass1_cons]
  unfold strictNamedRhs
  cases hn : rest.head? with
  | none => rw [pass1Step_named_noNext h1 h]
  | some next =>
    cases h3 : matchValDecl next with
    | none => rw [pass1Step_named_malformed h1 h h3]; simp [h3]
    | some w =>
      obtain ⟨i2, f⟩ := w
      by_cases h4 : camel_to_snake f = nm
      · rw [pass1Step_named_matching h1 h h3 h4]; simp [h3, h4]
      · rw [pass1Step_named_mismatch_strict h1 h h3 h4]; simp [h3, h4]

/-! ### Support for the single-quote classifier claim -/

theorem isQuote_not_space {q : Char} (hq : isQuote q = true) : isPySpace q = false := by
  simp [isQuote] at hq
  rcases hq with rfl | rfl <;> decide

theorem jsonNameCore_build {q : Char} (hq : isQuote q = true) {nm : Line}
    (hne : nm ≠ []) (hnq : ∀ c ∈ nm, isQuote c = false) {trail : List Char}
    (ht : trail.all isPySpace = true) :
    jsonNameCore (("@Json(name = ").toList ++ q :: (nm ++ q :: ')' :: trail)) =
      some nm := by
  have hqs := isQuote_not_space hq
  have hnmp : ∀ c ∈ nm, (fun c => !(isQuote c)) c = true := by
    intro c hc; simp [hnq c hc]
  have hsplit := @takeWhile_all_append (fun c => !(isQuote c)) nm q (')' :: trail)
    hnmp (by simp [hq])
  have hnemp : nm.isEmpty = false := by
    cases nm with
    | nil => exact absurd rfl hne
    | cons a b => rfl
  have en : ("name").toList = ['n', 'a', 'm', 'e'] := rfl
  have e1 : ("@Json(name = ").toList ++ q :: (nm ++ q :: ')' :: trail)
      = ("@Json(").toList ++
          ('n' :: 'a' :: 'm' :: 'e' :: ' ' :: '=' :: ' ' :: q :: (nm ++ q :: ')' :: trail)) := rfl
  unfold jsonNameCore
  rw [e1, stripLit_self_append]
  simp +decide [stripLit, List.dropWhile_cons, hsplit.1, hsplit.2, hq, hqs,
    hnemp, ht, en]

theorem matchJsonName_build {ind : Line} (hsp : ∀ c ∈ ind, isPySpace c = true)
    {q : Char} (hq : isQuote q = true) {nm : Line} (hne : nm ≠ [])
    (hnq : ∀ c ∈ nm, isQuote c = false) {trail : List Char}
    (ht : trail.all isPySpace = true) :
    matchJsonName (ind ++ (("@Json(name = ").toList ++ q :: (nm ++ q :: ')' :: trail)))
      = some (ind, nm) := by
  induction ind with
  | nil =>
    rw [List.nil_append]
    unfold matchJsonName
    have es : ("@Json(name = ").toList ++ q :: (nm ++ q :: ')' :: trail)
        = '@' :: (("Json(name = ").toList ++ q :: (nm ++ q :: ')' :: trail)) := rfl
    rw [es, List.dropWhile_cons_of_neg (by decide), List.takeWhile_cons_of_neg (by decide),
      ← es, jsonNameCore_build hq hne hnq ht]
    rfl
  | cons c it ih =>
    have hc := hsp c (by simp)
    rw [List.cons_append, matchJsonName_cons_space hc,
      ih (fun x hx => hsp x (by simp [hx]))]
    rfl

/-- Two lines classified as the same named field marker are transformed
identically by the pass-1 loop body (the body never looks at the raw line
again in that branch). -/
theorem pass1Step_named_congr {l1 l2 ind nm : Line}
    (e1 : matchJsonName l1 = some (ind, nm)) (e2 : matchJsonName l2 = some (ind, nm))
    (fm fa : Bool) (n? : Option Line) (r : Pass1Out) :
    pass1Step fm fa l1 n? r = pass1Step fm fa l2 n? r := by
  have hc1 := matchJsonName_not_jsonClass e1
  have hc2 := matchJsonName_not_jsonClass e2
  cases fa with
  | true => rw [pass1Step_named_fixAll hc1 e1, pass1Step_named_fixAll hc2 e2]
  | false =>
    cases n? with
    | none => rw [pass1Step_named_noNext hc1 e1, pass1Step_named_noNext hc2 e2]
    | some next =>
      cases h3 : matchValDecl next with
      | none =>
        rw [pass1Step_named_malformed hc1 e1 h3, pass1Step_named_malformed hc2 e2 h3]
      | some w =>
        obtain ⟨i2, f⟩ := w
        by_cases h4 : camel_to_snake f = nm
        · rw [pass1Step_named_matching hc1 e1 h3 h4,
            pass1Step_named_matching hc2 e2 h3 h4]
        · cases fm with
          | true =>
            rw [pass1Step_named_mismatch_fix hc1 e1 h3 h4,
              pass1Step_named_mismatch_fix hc2 e2 h3 h4]
          | false =>
            rw [pass1Step_named_mismatch_strict hc1 e1 h3 h4,
              pass1Step_named_mismatch_strict hc2 e2 h3 h4]

/-! ## Claim theorems -/

theorem process_file_written (orig : List Line) (w fm fa : Bool) :
    (process_file orig w fm fa).written =
      if (process_lines fm fa orig).errors = [] ∧
          (process_lines fm fa orig).changed = true ∧ w = true
      then some (process_lines fm fa orig).out else none := rfl

/-- Claim C1: for every file and every mode, `process_file` overwrites the
file if and only if the error list is empty, the changed flag is true, and
writing is enabled (first conjunct, as a boolean equation); when it does
write, it writes exactly the transformed lines (second conjunct).  In
particular, whenever at least one `ValidationError` was recorded the
written field is `none` and the file on disk is untouched, in every mode. -/
theorem claim_C1_write_gate (orig : List Line) (w fm fa : Bool) :
    ((process_file orig w fm fa).written.isSome
      = ((process_lines fm fa orig).errors.isEmpty &&
          (process_lines fm fa orig).changed && w)) ∧
    ((process_file orig w fm fa).written = none ∨
      (process_file orig w fm fa).written = some (process_lines fm fa orig).out) := by
  rw [process_file_written]
  constructor
  · by_cases hc : (process_lines fm fa orig).errors = [] ∧
        (process_lines fm fa orig).changed = true ∧ w = true
    · rw [if_pos hc]
      obtain ⟨e, c, ww⟩ := hc
      rw [e, c, ww]
      rfl
    · rw [if_neg hc]
      cases herr : (process_lines fm fa orig).errors with
      | cons a as => rfl
      | nil =>
        cases hch : (process_lines fm fa orig).changed with
        | false => rfl
        | true =>
          cases w with
          | false => rfl
          | true => exact absurd ⟨herr, hch, rfl⟩ hc
  · by_cases hc : (process_lines fm fa orig).errors = [] ∧
        (process_lines fm fa orig).changed = true ∧ w = true
    · rw [if_pos hc]; right; rfl
    · rw [if_neg hc]; left; rfl

/-- Claim C2, counterexample: in strict mode a lone `@Json(name = "a")`
line is dropped from the output (an error is recorded instead), yet the
changed flag stays `false` although the output differs from the input. -/
theorem claim_C2_counterexample :
    (process_lines false false [("@Json(name = \"a\")\n").toList]).changed = false ∧
    (process_lines false false [("@Json(name = \"a\")\n").toList]).out ≠
      [("@Json(name = \"a\")\n").toList] := by
  constructor
  · decide
  · decide

/-- Claim C2, amended: when the error list is empty, the changed flag is
true exactly when the output line sequence differs from the input line
sequence.  (The original claim fails only on runs that record errors: the
marker line is dropped there without setting `changed`.) -/
theorem claim_C2_changed_iff (fm fa : Bool) (ls : List Line)
    (herr : (process_lines fm fa ls).errors = []) :
    (process_lines fm fa ls).changed = true ↔ (process_lines fm fa ls).out ≠ ls := by
  constructor
  · intro h
    exact process_changed_ne h
  · intro hne
    cases hch : (process_lines fm fa ls).changed with
    | false => exact absurd (process_unchanged hch herr) hne
    | true => rfl

theorem claim_C2_changed_iff_witness :
    (process_lines false false [("@Json\n").toList]).errors = [] ∧
    ((process_lines false false [("@Json\n").toList]).changed = true ↔
      (process_lines false false [("@Json\n").toList]).out ≠ [("@Json\n").toList]) :=
  ⟨by decide, claim_C2_changed_iff false false [("@Json\n").toList] (by decide)⟩

/-- Claim C4: the naming validator is the total function given by the two
separator-insertion passes followed by lowercasing, and it maps the three
reference examples as specified. -/
theorem claim_C4_snake_case :
    (∀ s : List Char, camel_to_snake s = (snakeSub2 (snakeSub1 s)).map Char.toLower) ∧
    camel_to_snake (("userName").toList) = ("user_name").toList ∧
    camel_to_snake (("URLId").toList) = ("url_id").toList ∧
    camel_to_snake (("id").toList) = ("id").toList :=
  ⟨fun _ => rfl, by decide, by decide, by decide⟩

/-- Claim C5: applying the two-pass transform a second time to the output
of a first application yields `changed = false` and an empty error list,
for every input and mode. -/
theorem claim_C5_idempotent (fm fa : Bool) (ls : List Line) :
    (process_lines fm fa (process_lines fm fa ls).out).changed = false ∧
    (process_lines fm fa (process_lines fm fa ls).out).errors = [] :=
  second_run_noop fm fa fm fa ls

/-- Claim C9: the subsequence of input lines matching none of the
recognized patterns (class marker, either field marker, legacy import) is
a sublist of the output: each such line appears byte-for-byte (terminator
included) and in the original relative order. -/
theorem claim_C9_verbatim (fm fa : Bool) (ls : List Line) :
    List.Sublist (ls.filter isPlainLine) (process_lines fm fa ls).out :=
  process_plain_sublist fm fa ls

/-- Claim C3: in strict mode (no fix flags), a line classified as a named
field marker is processed exactly as `strictNamedRhs` describes: if there
is no following line, or the following line is not a `val` declaration,
exactly one `missingFieldDecl` / `malformedFieldDecl` error is prepended;
if the declaration parses but the derived snake-case name differs, exactly
one `nameMismatch` error is prepended; in all cases the marker line is
dropped (the output field is exactly that of the recursive scan) and the
scan continues with the following line, which is reprocessed normally as
part of `pass1 false false rest` — errors never abort the scan. -/
theorem claim_C3_strict_marker {line ind nm : Line}
    (h : matchJsonName line = some (ind, nm)) (rest : List Line) :
    pass1 false false (line :: rest) =
      strictNamedRhs nm rest.head? (pass1 false false rest) :=
  pass1_strict_named h rest

theorem claim_C3_strict_marker_witness :
    matchJsonName (("@Json(name = \"uname\")\n").toList) =
      some (([] : Line), ("uname").toList) ∧
    pass1 false false [("@Json(name = \"uname\")\n").toList, ("val x: Int\n").toList] =
      strictNamedRhs (("uname").toList)
        ([("val x: Int\n").toList].head?)
        (pass1 false false [("val x: Int\n").toList]) :=
  ⟨by decide,
   @claim_C3_strict_marker (("@Json(name = \"uname\")\n").toList) []
     (("uname").toList) (by decide) [("val x: Int\n").toList]⟩

/-- Claim C6, counterexample: a file that already contains the
serialization-enable import twice is passed through unchanged, so that very import
occurs twice in the output — "occurs at most once in the output"
fails as stated. -/
theorem claim_C6_counterexample :
    ¬((process_lines false false [serImportLine, serImportLine]).out.count
        serImportLine ≤ 1) := by
  decide

/-- Claim C6, amended: each of the two target imports is inserted at most
once per run — the occurrence count of the literal import line grows by
exactly one when the run inserts it and is preserved otherwise — and an
insertion happens only when the input contained no occurrence at all (the
product form of the third and fourth conjuncts).  Hence re-running on a
file already containing a target import never adds it again, and two class
markers still yield exactly one serialization-enable import (last
conjunct, the specification's example). -/
theorem claim_C6_insert_once (fm fa : Bool) (ls : List Line) :
    ((process_lines fm fa ls).out.count serImportLine =
      ls.count serImportLine +
        (if (process_lines fm fa ls).serImportAdded then 1 else 0)) ∧
    ((process_lines fm fa ls).out.count snImportLine =
      ls.count snImportLine +
        (if (process_lines fm fa ls).snImportAdded then 1 else 0)) ∧
    (ls.count serImportLine *
        (if (process_lines fm fa ls).serImportAdded then 1 else 0) = 0) ∧
    (ls.count snImportLine *
        (if (process_lines fm fa ls).snImportAdded then 1 else 0) = 0) ∧
    ((process_lines false false
        [("@JsonClass(a)\n").toList, ("class A\n").toList,
         ("@JsonClass(b)\n").toList, ("class B\n").toList]).out.count
      serImportLine = 1) := by
  refine ⟨process_count_ser fm fa ls, process_count_sn fm fa ls, ?_, ?_, by decide⟩
  · cases hs : (process_lines fm fa ls).serImportAdded with
    | false => simp
    | true => simp [process_ser_added_zero hs]
  · cases hs : (process_lines fm fa ls).snImportAdded with
    | false => simp
    | true => simp [process_sn_added_zero hs]

/-- Claim C7, counterexample: with a legacy import line before the package
line, the package anchor (computed on the pre-removal sequence) no longer
points at the package line of the filtered sequence, so the required new import
is NOT inserted immediately after the package line. -/
theorem claim_C7_counterexample :
    (process_lines false false
        [("import com.squareup.moshi.Json\n").toList, ("package a\n").toList,
         ("@JsonClass(x)\n").toList]).out =
      [("package a\n").toList, ("@Serializable\n").toList,
       ("import kotlinx.serialization.Serializable\n").toList] ∧
    (process_lines false false
        [("import com.squareup.moshi.Json\n").toList, ("package a\n").toList,
         ("@JsonClass(x)\n").toList]).out ≠
      [("package a\n").toList, ("import kotlinx.serialization.Serializable\n").toList,
       ("@Serializable\n").toList] := by
  constructor
  · decide
  · decide

/-- Claim C7, amended: every required import is inserted by `insertImport`
at the deterministic anchor, where (1) with a surviving import line at last
index `k` the anchor is `k + 1` and the updated `last_import_idx` is `k+1`,
so a second insertion lands directly below the first; (2) with no surviving import-
prefixed line but a package line, the anchor derives from the package
line's index `p0` in the PRE-removal sequence (`p0+1`, or `p0+2` skipping
one blank line), clamped into the filtered list — NOT necessarily
immediately after the package line itself (see the counterexample); (3)
otherwise the import is put at the very top; (4) `pyInsert` places the
element at position `min i length`; and (5) `process_lines` wires exactly
these anchors: `last_import_idx` over the filtered lines, `package_index`
over the pre-removal pass-1 output. -/
theorem claim_C7_anchors :
    (∀ (res : List Line) (k : Nat) (pkg : Option Nat) (imp : Line),
      insertImport res (some k) pkg imp = (pyInsert res (k + 1) imp, k + 1)) ∧
    (∀ (res : List Line) (p0 : Nat) (imp : Line),
      insertImport res none (some p0) imp =
        (pyInsert res
          (if p0 + 1 < res.length ∧ pyStrip (res.getD (p0 + 1) []) = []
           then p0 + 2 else p0 + 1) imp,
         if p0 + 1 < res.length ∧ pyStrip (res.getD (p0 + 1) []) = []
         then p0 + 2 else p0 + 1)) ∧
    (∀ (res : List Line) (imp : Line),
      insertImport res none none imp = (imp :: res, 0)) ∧
    (∀ (xs : List Line) (i : Nat) (x d : Line),
      (pyInsert xs i x).getD (min i xs.length) d = x) ∧
    (∀ (fm fa : Bool) (ls : List Line),
      (process_lines fm fa ls).out =
        insertPhase (resultZero (pass1 fm fa ls))
          (lastImportIdx (resultZero (pass1 fm fa ls)))
          (packageIdx (pass1 fm fa ls).out)
          (doSerOf (pass1 fm fa ls)) (doSNOf (pass1 fm fa ls))) :=
  ⟨fun _ _ _ _ => rfl, fun _ _ _ => rfl, fun _ _ => rfl,
   fun xs i x d => pyInsert_getD xs i x d, fun fm fa ls => process_lines_out fm fa ls⟩

/-- Claim C8: in fix-mismatches mode (`fix_names`, no `fix_all`), a named
field marker whose declared wire name differs from the derived snake-case
name of the following field declaration is rewritten in place to the
rename marker carrying the declared name with the marker's indentation; no
error is recorded (the errors field is exactly that of the recursive scan,
first conjunct).  On matching names the behaviour is identical to strict
mode: the same drop-and-count equation holds for both mode flags (second
conjunct).  On the specification's example the rename import is inserted
exactly once and the file is written when writing is enabled (third
conjunct). -/
theorem claim_C8_fix_mismatches {line ind nm next i2 f : Line}
    (h : matchJsonName line = some (ind, nm))
    (hv : matchValDecl next = some (i2, f))
    (hmis : ¬(camel_to_snake f = nm))
    {line2 ind2 nm2 next2 i22 f2 : Line}
    (h2 : matchJsonName line2 = some (ind2, nm2))
    (hv2 : matchValDecl next2 = some (i22, f2))
    (hmat : camel_to_snake f2 = nm2)
    (rest rest2 : List Line) :
    (pass1 true false (line :: next :: rest) =
      { pass1 true false (next :: rest) with
          out := serialNameLine ind nm :: (pass1 true false (next :: rest)).out
          insSN := true
          changed := true }) ∧
    (∀ b : Bool, pass1 b false (line2 :: next2 :: rest2) =
      { pass1 b false (next2 :: rest2) with
          jsonRemoved := (pass1 b false (next2 :: rest2)).jsonRemoved + 1
          changed := true }) ∧
    ((process_lines true false
        [("@Json(name = \"uname\")\n").toList,
         ("val userName: String\n").toList]).errors = [] ∧
      (process_lines true false
        [("@Json(name = \"uname\")\n").toList,
         ("val userName: String\n").toList]).out.count snImportLine = 1 ∧
      (process_file
        [("@Json(name = \"uname\")\n").toList,
         ("val userName: String\n").toList] true true false).written =
        some (process_lines true false
          [("@Json(name = \"uname\")\n").toList,
           ("val userName: String\n").toList]).out) := by
  refine ⟨?_, ?_, by decide, by decide, by decide⟩
  · rw [pass1_cons, show (next :: rest).head? = some next from rfl,
      pass1Step_named_mismatch_fix (matchJsonName_not_jsonClass h) h hv hmis]
  · intro b
    rw [pass1_cons, show (next2 :: rest2).head? = some next2 from rfl,
      pass1Step_named_matching (matchJsonName_not_jsonClass h2) h2 hv2 hmat]

theorem claim_C8_fix_mismatches_witness :
    matchJsonName (("@Json(name = \"uname\")\n").toList) =
      some (([] : Line), ("uname").toList) ∧
    matchValDecl (("val userName: String\n").toList) =
      some (([] : Line), ("userName").toList) ∧
    ¬(camel_to_snake (("userName").toList) = ("uname").toList) ∧
    matchJsonName (("@Json(name = \"user_name\")\n").toList) =
      some (([] : Line), ("user_name").toList) ∧
    matchValDecl (("val userName: String\n").toList) =
      some (([] : Line), ("userName").toList) ∧
    camel_to_snake (("userName").toList) = ("user_name").toList ∧
    (pass1 true false
        [("@Json(name = \"uname\")\n").toList, ("val userName: String\n").toList] =
      { pass1 true false [("val userName: String\n").toList] with
          out := serialNameLine [] (("uname").toList) ::
            (pass1 true false [("val userName: String\n").toList]).out
          insSN := true
          changed := true }) :=
  ⟨by decide, by decide, by decide, by decide, by decide, by decide,
   (@claim_C8_fix_mismatches (("@Json(name = \"uname\")\n").toList) []
      (("uname").toList) (("val userName: String\n").toList) []
      (("userName").toList) (by decide) (by decide) (by decide)
      (("@Json(name = \"user_name\")\n").toList) [] (("user_name").toList)
      (("val userName: String\n").toList) [] (("userName").toList)
      (by decide) (by decide) (by decide) [] []).1⟩

/-- Claim C10: a named field marker whose name is delimited by single
quotes is classified exactly as the double-quoted form: both lines match
the named-marker pattern with the same indent and the same captured wire
name, and pass 1 transforms a file starting with either line identically,
in every mode. -/
theorem claim_C10_single_quotes {ind : Line} (hsp : ∀ c ∈ ind, isPySpace c = true)
    {nm : Line} (hne : nm ≠ []) (hnq : ∀ c ∈ nm, isQuote c = false)
    {trail : List Char} (ht : trail.all isPySpace = true)
    (fm fa : Bool) (rest : List Line) :
    matchJsonName (ind ++ (("@Json(name = ").toList ++ '\'' ::
        (nm ++ '\'' :: ')' :: trail))) = some (ind, nm) ∧
    matchJsonName (ind ++ (("@Json(name = ").toList ++ '"' ::
        (nm ++ '"' :: ')' :: trail))) = some (ind, nm) ∧
    pass1 fm fa ((ind ++ (("@Json(name = ").toList ++ '\'' ::
        (nm ++ '\'' :: ')' :: trail))) :: rest) =
      pass1 fm fa ((ind ++ (("@Json(name = ").toList ++ '"' ::
        (nm ++ '"' :: ')' :: trail))) :: rest) := by
  have e1 := matchJsonName_build hsp (q := '\'') (by decide) hne hnq ht
  have e2 := matchJsonName_build hsp (q := '"') (by decide) hne hnq ht
  refine ⟨e1, e2, ?_⟩
  rw [pass1_cons, pass1_cons]
  exact pass1Step_named_congr e1 e2 fm fa rest.head? (pass1 fm fa rest)

theorem claim_C10_single_quotes_witness :
    matchJsonName ((' ' :: []) ++ (("@Json(name = ").toList ++ '\'' ::
        ((['u'] : Line) ++ '\'' :: ')' :: ['\n']))) = some ((' ' :: []), (['u'] : Line)) ∧
    matchJsonName ((' ' :: []) ++ (("@Json(name = ").toList ++ '"' ::
        ((['u'] : Line) ++ '"' :: ')' :: ['\n']))) = some ((' ' :: []), (['u'] : Line)) ∧
    pass1 false false (((' ' :: []) ++ (("@Json(name = ").toList ++ '\'' ::
        ((['u'] : Line) ++ '\'' :: ')' :: ['\n']))) :: []) =
      pass1 false false (((' ' :: []) ++ (("@Json(name = ").toList ++ '"' ::
        ((['u'] : Line) ++ '"' :: ')' :: ['\n']))) :: []) :=
  @claim_C10_single_quotes (' ' :: []) (by decide) (['u'] : Line) (by decide)
    (by decide) ['\n'] (by decide) false false []
